import Mathlib

/-!
Shallow embedding of the node directory and dispatcher core of
fuse-2.3.0 lib/fuse.c.

The two chained hash tables of the C code (ID index and name index) are
modelled by a single list of `Node` records: every live node is in the
list (the ID index), and the attached nodes (those with `name ≠ none`)
form the name index, exactly as in the C code where `hash_id` runs at
node creation and `unhash_id` only at destruction, while `hash_name` and
`unhash_name` set and clear the `name`/`parent` fields.  Hash-bucket
probes (`get_node_nocheck`, `lookup_node`) become `List.find?`; chain
insertion becomes `cons`; chain removal is the `name := none` field
update; `unhash_id`+`free` is a `filter`.  `abort()` (failed asserts,
`get_node` misses) and unbounded loops that ran out of fuel are modelled
by `Option.none`: an aborted process has no successor state.
Machine integers (`nodeid_t`, `unsigned int`) are `Nat` with explicit
`% 2^64` / `% 2^32` where the C code can wrap.
-/

/-- `struct node` of fuse.c (the two chain pointers are represented by
list membership).  `refctr`/`open_count` are C `int`s only ever
incremented and decremented under positivity asserts, so `Nat`. -/
structure Node where
  nodeid : Nat
  generation : Nat
  refctr : Nat
  parent : Nat
  name : Option String
  version : Nat
  nlookup : Nat
  open_count : Nat
  is_hidden : Bool
deriving Repr, DecidableEq

/-- The node-directory portion of `struct fuse`: the node table plus the
monotonic id counter, its generation epoch, and the hide counter. -/
structure FuseState where
  nodes : List Node
  ctr : Nat
  generation : Nat
  hidectr : Nat
deriving Repr, DecidableEq

def FUSE_ROOT_ID : Nat := 1

def FUSE_MAX_PATH : Nat := 4096

/-- Width of `nodeid_t` (64-bit) arithmetic. -/
def W64 : Nat := 2 ^ 64

/-- Width of `unsigned int` (32-bit) arithmetic (`hidectr`, `%08x`). -/
def W32 : Nat := 2 ^ 32

/-- `get_node_nocheck`: probe of the ID index. -/
def getN (ns : List Node) (j : Nat) : Option Node :=
  ns.find? (fun n => decide (n.nodeid = j))

/-- `lookup_node`: probe of the name index (`parent` and `name` match;
detached nodes have `name = none` and never match). -/
def lookupN (ns : List Node) (p : Nat) (nm : String) : Option Node :=
  ns.find? (fun n => decide (n.parent = p ∧ n.name = some nm))

/-- In-place field update of the node with identifier `j` (the C code
mutates the node through a pointer; all updates preserve `nodeid`). -/
def updN (ns : List Node) (j : Nat) (g : Node → Node) : List Node :=
  ns.map (fun n => if n.nodeid = j then g n else n)

/-- `unhash_id` + `free_node`: removal of node `j` from the table. -/
def delN (ns : List Node) (j : Nat) : List Node :=
  ns.filter (fun n => decide (n.nodeid ≠ j))

def idsOf (ns : List Node) : List Nat := ns.map Node.nodeid

/-- The loop body of `next_id`:
`do { ctr++; if (!ctr) generation++; } while (ctr == 0 || in use)`.
The C loop is unbounded; fuel `W64` suffices whenever a free identifier
exists (the loop visits every residue once). -/
def nextIdAux (ids : List Nat) : Nat → Nat → Nat → Option (Nat × Nat)
  | 0, _, _ => none
  | fuel + 1, ctr, gen =>
    let c := (ctr + 1) % W64
    let g := if c = 0 then gen + 1 else gen
    if c = 0 ∨ c ∈ ids then nextIdAux ids fuel c g
    else some (c, g)

/-- `next_id`: returns the issued identifier and the state with the
updated `ctr` and `generation`. -/
def next_id (st : FuseState) : Option (Nat × FuseState) :=
  (nextIdAux (idsOf st.nodes) W64 st.ctr st.generation).map
    (fun cg => (cg.1, { st with ctr := cg.1, generation := cg.2 }))

/-- `unref_node`: `assert(refctr > 0)`, decrement, and on reaching zero
`delete_node` (which asserts the node is detached and unhashes it from
the ID index).  Assertion failures are `none`. -/
def unref_node (st : FuseState) (j : Nat) : Option FuseState :=
  match getN st.nodes j with
  | none => none
  | some n =>
    if n.refctr = 0 then none
    else
      let st1 : FuseState :=
        { st with nodes := updN st.nodes j (fun m => { m with refctr := m.refctr - 1 }) }
      if n.refctr - 1 = 0 then
        if n.name ≠ none then none
        else some { st1 with nodes := delN st1.nodes j }
      else some st1

/-- `unhash_name`: if the node is attached, remove it from the name
chain, `unref_node(get_node(parent))`, then clear `name` and `parent`.
`get_node` on a missing parent aborts; if the parent's refcount hits
zero while the parent is still attached, `delete_node`'s assert fires
(this covers the aliasing case parent = node, whose name is still set
at that point). -/
def unhash_name (st : FuseState) (j : Nat) : Option FuseState :=
  match getN st.nodes j with
  | none => none
  | some n =>
    match n.name with
    | none => some st
    | some _ =>
      match unref_node st n.parent with
      | none => none
      | some st1 =>
        some { st1 with
               nodes := updN st1.nodes j (fun m => { m with name := none, parent := 0 }) }

/-- `hash_name`: `get_node(parent)->refctr++` (abort on a missing
parent), then set the node's `parent` and `name` and link it into the
name chain.  The C `strdup` out-of-memory failure is not modelled. -/
def hash_name (st : FuseState) (j : Nat) (parent : Nat) (nm : String) : Option FuseState :=
  match getN st.nodes parent with
  | none => none
  | some _ =>
    let st1 : FuseState :=
      { st with nodes := updN st.nodes parent (fun m => { m with refctr := m.refctr + 1 }) }
    some { st1 with
           nodes := updN st1.nodes j (fun m => { m with parent := parent, name := some nm }) }

/-- The freshly allocated node of `find_node`'s miss path: the `calloc`
zeroing plus the explicit assignments of `find_node` together with the
`parent`/`name` set by `hash_name` and the trailing
`version`/`nlookup` updates. -/
def freshNode (j gen parent : Nat) (nm : String) (version : Nat) : Node :=
  { nodeid := j, generation := gen, refctr := 1, parent := parent,
    name := some nm, version := version, nlookup := 1, open_count := 0,
    is_hidden := false }

/-- `find_node` (the `find_or_create` operation): name-index probe; on a
hit refresh `version` and bump `nlookup`; on a miss allocate a fresh
node with a newly issued id, hash it into both indices (bumping the
parent's refcount) and set `version`/`nlookup`.  The fresh node value
combines the `calloc` zeroing, the assignments of `find_node`, and the
effect of `hash_name`/`hash_id`; `next_id` runs before `hash_id`, so the
ID probe inside `next_id` does not see the new node, and `generation` is
read after `next_id` may have bumped it.  Out-of-memory is not
modelled.  Returns the new state and the node's id. -/
def find_node (st : FuseState) (parent : Nat) (nm : String) (version : Nat) :
    Option (FuseState × Nat) :=
  match lookupN st.nodes parent nm with
  | some n =>
    let refreshed :=
      updN st.nodes n.nodeid (fun m => { m with version := version, nlookup := m.nlookup + 1 })
    some ({ st with nodes := refreshed }, n.nodeid)
  | none =>
    match next_id st with
    | none => none
    | some (j, st1) =>
      match getN st1.nodes parent with
      | none => none
      | some _ =>
        some ({ st1 with
                nodes := freshNode j st1.generation parent nm version :: updN st1.nodes parent
                  (fun m => { m with refctr := m.refctr + 1 }) },
              j)

/-- `forget_node`: no-op on the root; otherwise `get_node` (abort on a
miss), `assert(nlookup >= n)`, decrement, and when the count reaches
zero unhash from the name index and drop the creation reference. -/
def forget_node (st : FuseState) (j : Nat) (nl : Nat) : Option FuseState :=
  if j = FUSE_ROOT_ID then some st
  else
    match getN st.nodes j with
    | none => none
    | some n =>
      if n.nlookup < nl then none
      else
        let st1 : FuseState :=
          { st with nodes := updN st.nodes j (fun m => { m with nlookup := m.nlookup - nl }) }
        if n.nlookup - nl = 0 then
          match unhash_name st1 j with
          | none => none
          | some st2 => unref_node st2 j
        else some st1

/-- `forget_node_old` (legacy, protocol major ≤ 6): `get_node_nocheck`
(no abort), and only when the stored `version` matches and the node is
not the root: clear `version`, unhash from the name index, and drop the
creation reference.  `nlookup` is not decremented. -/
def forget_node_old (st : FuseState) (j : Nat) (version : Nat) : Option FuseState :=
  match getN st.nodes j with
  | none => some st
  | some n =>
    if n.version = version ∧ j ≠ FUSE_ROOT_ID then
      let st1 : FuseState :=
        { st with nodes := updN st.nodes j (fun m => { m with version := 0 }) }
      match unhash_name st1 j with
      | none => none
      | some st2 => unref_node st2 j
    else some st

/-- `cancel_lookup`: undo of a lookup whose reply write failed. -/
def cancel_lookup (major : Nat) (st : FuseState) (j : Nat) (version : Nat) :
    Option FuseState :=
  if major ≤ 6 then forget_node_old st j version
  else forget_node st j 1

/-- `remove_node`: unhash the child at `(dir, nm)` if present. -/
def remove_node (st : FuseState) (dir : Nat) (nm : String) : Option FuseState :=
  match lookupN st.nodes dir nm with
  | none => some st
  | some n => unhash_name st n.nodeid

def EBUSY : Int := 16
def ENOENT : Int := 2
def ENOSYS : Int := 38
def ENOMEM : Int := 12
def ERANGE : Int := 34
def EACCES : Int := 13
def EPROTO : Int := 71

/-- The tail of `rename_node`: unhash the source, re-hash it under the
new (parent, name), and set `is_hidden` when hiding. -/
def renameRehash (st : FuseState) (j : Nat) (newdir : Nat) (newname : String)
    (hide : Bool) : Option (Int × FuseState) :=
  match unhash_name st j with
  | none => none
  | some st1 =>
    match hash_name st1 j newdir newname with
    | none => none
    | some st2 =>
      some (0, if hide
               then { st2 with nodes := updN st2.nodes j (fun m => { m with is_hidden := true }) }
               else st2)

/-- `rename_node`: both probes are made first; a missing source is a
silent success.  An existing target is busy when hiding, otherwise it is
unhashed.  The source is re-indexed under the new (parent, name), and
marked hidden when `hide` is set. -/
def rename_node (st : FuseState) (olddir : Nat) (oldname : String)
    (newdir : Nat) (newname : String) (hide : Bool) : Option (Int × FuseState) :=
  let node := lookupN st.nodes olddir oldname
  let newnode := lookupN st.nodes newdir newname
  match node with
  | none => some (0, st)
  | some n =>
    match newnode with
    | some nn =>
      if hide then some (-EBUSY, st)
      else
        match unhash_name st nn.nodeid with
        | none => none
        | some stA => renameRehash stA n.nodeid newdir newname hide
    | none => renameRehash st n.nodeid newdir newname hide

/-- The `node->open_count++` bookkeeping of `do_open` (performed through
`get_node`, which aborts on a miss). -/
def open_node (st : FuseState) (j : Nat) : Option FuseState :=
  match getN st.nodes j with
  | none => none
  | some _ =>
    some { st with nodes := updN st.nodes j (fun m => { m with open_count := m.open_count + 1 }) }

/-- The bookkeeping prefix of `do_release`: `get_node` (abort on miss),
`assert(open_count > 0)`, decrement, and compute
`unlink_hidden = (is_hidden && !open_count)`. -/
def release_node (st : FuseState) (j : Nat) : Option (FuseState × Bool) :=
  match getN st.nodes j with
  | none => none
  | some n =>
    if n.open_count = 0 then none
    else
      some ({ st with
              nodes := updN st.nodes j (fun m => { m with open_count := m.open_count - 1 }) },
            n.is_hidden && n.open_count - 1 = 0)

/-- `is_open`: the node at `(dir, nm)` exists and has open handles. -/
def isOpen (st : FuseState) (dir : Nat) (nm : String) : Bool :=
  match lookupN st.nodes dir nm with
  | some n => 0 < n.open_count
  | none => false

/-! ### Node-directory operations as a step relation (for the root
invariant): any sequence of the mutating operations applied from the
freshly constructed directory. -/

inductive DirOp where
  | find (parent : Nat) (nm : String) (version : Nat)
  | forget (j : Nat) (nl : Nat)
  | forgetOld (j : Nat) (version : Nat)
  | remove (dir : Nat) (nm : String)
  | rename (olddir : Nat) (oldname : String) (newdir : Nat) (newname : String) (hide : Bool)
  | openBk (j : Nat)
  | releaseBk (j : Nat)
deriving Repr, DecidableEq

def applyOp (st : FuseState) : DirOp → Option FuseState
  | .find p nm v => (find_node st p nm v).map (·.1)
  | .forget j nl => forget_node st j nl
  | .forgetOld j v => forget_node_old st j v
  | .remove d nm => remove_node st d nm
  | .rename a b c d h => (rename_node st a b c d h).map (·.2)
  | .openBk j => open_node st j
  | .releaseBk j => (release_node st j).map (·.1)

def runOps (st : FuseState) : List DirOp → Option FuseState
  | [] => some st
  | op :: ops => (applyOp st op).bind (fun st1 => runOps st1 ops)

/-- The root node as built by `fuse_new_common` (`calloc` zeroing plus
the explicit assignments: `name = "/"`, `parent = 0`,
`nodeid = FUSE_ROOT_ID`, `generation = 0`, `refctr = 1`,
`nlookup = 1`). -/
def rootNode : Node :=
  { nodeid := FUSE_ROOT_ID, generation := 0, refctr := 1, parent := 0,
    name := some "/", version := 0, nlookup := 1, open_count := 0, is_hidden := false }

/-- The node directory as built by `fuse_new_common`
(`ctr = 0`, `generation = 0`, only the root hashed). -/
def initState : FuseState :=
  { nodes := [rootNode], ctr := 0, generation := 0, hidectr := 0 }

/-! ### Path reconstruction (`add_name` / `get_path_name`) -/

/-- `add_name`: prepend `/name` to the string being assembled at buffer
position `pos` (an index into the 4096-byte scratch buffer; the C
pointer comparison `s <= buf` is the test `pos - len ≤ 0`).  Returns the
new position (at the `/`) and the assembled suffix. -/
def add_name (pos : Int) (acc : String) (nm : String) : Option (Int × String) :=
  let s : Int := pos - nm.length
  if s ≤ 0 then none
  else some (s - 1, "/" ++ nm ++ acc)

/-- The parent-chain walk of `get_path_name`: starting from `nodeid`,
prepend each node's name until the root is reached.  `get_node` misses
abort (`none`), a detached ancestor (`name == NULL`) and `add_name`
overflow fail (`none`).  The C loop is unbounded; each iteration
consumes at least one buffer byte, so fuel `FUSE_MAX_PATH` is enough to
reproduce every terminating behaviour. -/
def pathWalk (ns : List Node) : Nat → Nat → Int → String → Option String
  | 0, _, _, _ => none
  | fuel + 1, j, pos, acc =>
    match getN ns j with
    | none => none
    | some n =>
      if n.nodeid = FUSE_ROOT_ID then some acc
      else
        match n.name with
        | none => none
        | some nm =>
          match add_name pos acc nm with
          | none => none
          | some pa => pathWalk ns fuel n.parent pa.1 pa.2

/-- `get_path_name`: optional leaf first, then the ancestor walk; an
empty result denotes the root and is returned as "/". -/
def get_path_name (ns : List Node) (fuel : Nat) (j : Nat) (leaf : Option String) :
    Option String :=
  let start : Int := (FUSE_MAX_PATH : Int) - 1
  let init : Option (Int × String) :=
    match leaf with
    | none => some (start, "")
    | some nm => add_name start "" nm
  match init with
  | none => none
  | some pa =>
    match pathWalk ns fuel j pa.1 pa.2 with
    | none => none
    | some acc => some (if acc = "" then "/" else acc)

/-- Modelled from the spec: the chain of leaf components from a node up
to the root ("Path reconstruction from any attached node terminates at
the root", "the root ... is never emitted as a component"), nearest
ancestor first; `none` when the walk cannot be completed. -/
def specChain (ns : List Node) : Nat → Nat → Option (List String)
  | 0, _ => none
  | fuel + 1, j =>
    match getN ns j with
    | none => none
    | some n =>
      if n.nodeid = FUSE_ROOT_ID then some []
      else
        match n.name with
        | none => none
        | some nm => (specChain ns fuel n.parent).map (fun ch => nm :: ch)

/-- Modelled from the spec: "path assembly ... prefixing each component
with `/` ... from the rightmost byte leftwards": fold the chain,
prepending `/c` for each component (nearest component is rightmost). -/
def renderAux : List String → String → String
  | [], acc => acc
  | nm :: ch, acc => renderAux ch ("/" ++ nm ++ acc)

/-- Bytes consumed in the scratch buffer by a component list: each
component costs its length plus one for the `/`. -/
def chainCost : List String → Nat
  | [] => 0
  | nm :: ch => nm.length + 1 + chainCost ch

def leafRender : Option String → String
  | none => ""
  | some nm => "/" ++ nm

def leafCost : Option String → Nat
  | none => 0
  | some nm => nm.length + 1

/-- `true` when the parent chain of `j` reaches a detached node
(`name == NULL`) before reaching the root. -/
def ancestorDetached (ns : List Node) : Nat → Nat → Bool
  | 0, _ => false
  | fuel + 1, j =>
    match getN ns j with
    | none => false
    | some n =>
      if n.nodeid = FUSE_ROOT_ID then false
      else
        match n.name with
        | none => true
        | some _ => ancestorDetached ns fuel n.parent

/-! ### The hidden-name machinery and the UNLINK / RELEASE handlers -/

/-- User callbacks visible to the unlink path, as oracles: presence
flags and result functions.  `getattrRes p = 0` means "`p` exists on the
backing filesystem". -/
structure UserOps where
  hasGetattr : Bool
  hasRename : Bool
  hasUnlink : Bool
  hasRelease : Bool
  getattrRes : String → Int
  renameRes : String → String → Int
  unlinkRes : String → Int

/-- Log of user-callback invocations made by a handler. -/
inductive Ev where
  | gattr (p : String)
  | ren (a b : String)
  | unl (p : String)
  | rel (p : String)
deriving Repr, DecidableEq

def hexDigit (n : Nat) : Char :=
  if n < 10 then Char.ofNat (48 + n) else Char.ofNat (87 + n)

/-- `%08x`: eight lowercase hex digits of `n mod 2^32`. -/
def toHex8 (n : Nat) : String :=
  String.mk ((List.range 8).map (fun i => hexDigit (n % W32 / 16 ^ (7 - i) % 16)))

/-- The candidate name `".fuse_hidden%08x%08x"` built from the node id
(truncated to `unsigned int`) and the hide counter. -/
def hiddenFmt (nodeid : Nat) (hidectr : Nat) : String :=
  ".fuse_hidden" ++ toHex8 nodeid ++ toHex8 hidectr

/-- The inner `do { hidectr++; snprintf(...); } while (lookup_node)`
loop of `hidden_name`: find a candidate name absent from the name
index.  The C loop is unbounded; fuel exhaustion is `none`. -/
def hiddenNameInner (st : FuseState) (dir : Nat) (nodeid : Nat) :
    Nat → Option (String × FuseState)
  | 0 => none
  | fuel + 1 =>
    let hc := (st.hidectr + 1) % W32
    let cand := hiddenFmt nodeid hc
    let st1 : FuseState := { st with hidectr := hc }
    if (lookupN st1.nodes dir cand).isSome then hiddenNameInner st1 dir nodeid fuel
    else some (cand, st1)

/-- The outer retry loop of `hidden_name` (`failctr`, 10 tries): pick a
candidate absent from the name index, build its path, and probe the
backing filesystem with `getattr`; accept when the probe says the name
does not exist.  Returns `(some (newname, newpath))` on success, `none`
in the result component on failure; the state (hide counter) and the
event log always flow through.  `innerFuel` bounds the unbounded inner
loop; `none` overall models its non-termination. -/
def hiddenNameLoop (ops : UserOps) (dir : Nat) (oldname : String) (innerFuel : Nat) :
    Nat → FuseState → List Ev → Option (Option (String × String) × FuseState × List Ev)
  | 0, st, evs => some (none, st, evs)
  | failctr + 1, st, evs =>
    match lookupN st.nodes dir oldname with
    | none => some (none, st, evs)
    | some node =>
      match hiddenNameInner st dir node.nodeid innerFuel with
      | none => none
      | some (cand, st1) =>
        match get_path_name st1.nodes FUSE_MAX_PATH dir (some cand) with
        | none => some (none, st1, evs)
        | some newpath =>
          let evs1 := evs ++ [Ev.gattr newpath]
          if ops.getattrRes newpath ≠ 0 then some (some (cand, newpath), st1, evs1)
          else hiddenNameLoop ops dir oldname innerFuel failctr st1 evs1

/-- `hidden_name`: `NULL` without a `getattr` callback, otherwise the
retry loop with `failctr = 10`. -/
def hidden_name (ops : UserOps) (st : FuseState) (dir : Nat) (oldname : String)
    (innerFuel : Nat) : Option (Option (String × String) × FuseState × List Ev) :=
  if ¬ops.hasGetattr then some (none, st, [])
  else hiddenNameLoop ops dir oldname innerFuel 10 st []

/-- `hide_node`: requires both `rename` and `unlink` callbacks; get a
hidden name, invoke the user `rename`, and on success re-index the node
under the hidden name with `hide = 1`. -/
def hide_node (ops : UserOps) (st : FuseState) (oldpath : String) (dir : Nat)
    (oldname : String) (innerFuel : Nat) : Option (Int × FuseState × List Ev) :=
  if ops.hasRename ∧ ops.hasUnlink then
    match hidden_name ops st dir oldname innerFuel with
    | none => none
    | some (none, st1, evs) => some (-EBUSY, st1, evs)
    | some (some (cand, newpath), st1, evs) =>
      let r := ops.renameRes oldpath newpath
      let evs1 := evs ++ [Ev.ren oldpath newpath]
      if r = 0 then
        match rename_node st1 dir oldname dir cand true with
        | none => none
        | some (err, st2) => some (err, st2, evs1)
      else some (-EBUSY, st1, evs1)
  else some (-EBUSY, st, [])

/-- `do_unlink` (reply value, new state, user callbacks invoked): path
reconstruction, then either the hide dance (no "hard_remove", target
open) or a direct user `unlink` followed by `remove_node` on success. -/
def do_unlink (ops : UserOps) (hardRemove : Bool) (st : FuseState) (dir : Nat)
    (nm : String) (innerFuel : Nat) : Option (Int × FuseState × List Ev) :=
  match get_path_name st.nodes FUSE_MAX_PATH dir (some nm) with
  | none => some (-ENOENT, st, [])
  | some path =>
    if ¬ops.hasUnlink then some (-ENOSYS, st, [])
    else if ¬hardRemove ∧ isOpen st dir nm then hide_node ops st path dir nm innerFuel
    else
      let r := ops.unlinkRes path
      if r = 0 then (remove_node st dir nm).map (fun st1 => (r, st1, [Ev.unl path]))
      else some (r, st, [Ev.unl path])

/-- `do_release`: decrement `open_count` (with its assert), call the
user `release` if present, and when the node is hidden and the count
reached zero issue the user `unlink` on the reconstructed path. -/
def do_release (ops : UserOps) (st : FuseState) (j : Nat) :
    Option (FuseState × List Ev) :=
  match release_node st j with
  | none => none
  | some (st1, unlinkHidden) =>
    let path := get_path_name st1.nodes FUSE_MAX_PATH j none
    let evs1 : List Ev :=
      if ops.hasRelease then [Ev.rel (match path with | some p => p | none => "-")] else []
    let evs2 : List Ev :=
      match path with
      | some p => if unlinkHidden then evs1 ++ [Ev.unl p] else evs1
      | none => evs1
    some (st1, evs2)

/-! ### Reply marshalling (`send_reply`) -/

/-- `send_reply`: out-of-range error values are forced to `-ERANGE`; the
payload iovec is attached exactly when the (possibly replaced) error is
zero and the payload size is nonzero.  Result: the error put in the
header, the iovec count (1 = header only, 2 = header + payload), and the
total outgoing size. -/
def send_reply_m (headerSize : Nat) (error : Int) (argsize : Nat) : Int × Nat × Nat :=
  let e := if error ≤ -1000 ∨ 0 < error then -ERANGE else error
  let hasArg := argsize ≠ 0 ∧ e = 0
  (e, if hasArg then 2 else 1, headerSize + if hasArg then argsize else 0)

/-! ### The dispatch gate of `fuse_process_cmd` -/

inductive Opcode where
  | LOOKUP | FORGET | GETATTR | SETATTR | READLINK | SYMLINK | MKNOD | MKDIR
  | UNLINK | RMDIR | RENAME | LINK | OPEN | READ | WRITE | STATFS | FLUSH
  | RELEASE | FSYNC | SETXATTR | GETXATTR | LISTXATTR | REMOVEXATTR | INIT
  | OPENDIR | READDIR | RELEASEDIR | FSYNCDIR | UNKNOWN
deriving Repr, DecidableEq

inductive GateResult where
  | rejectProto
  | rejectAccess
  | dispatch
deriving Repr, DecidableEq

/-- The two early-reply gates of `fuse_process_cmd`: the `got_init`
protocol check, then the "allow_root" owner-or-root check with its
opcode exemptions.  `dispatch` means the per-opcode handler runs. -/
def processGate (gotInit allowRoot : Bool) (owner uid : Nat) (op : Opcode) : GateResult :=
  if ¬gotInit ∧ op ≠ .INIT then .rejectProto
  else if allowRoot ∧ uid ≠ owner ∧ uid ≠ 0 ∧
          op ≠ .INIT ∧ op ≠ .READ ∧ op ≠ .WRITE ∧ op ≠ .FSYNC ∧
          op ≠ .RELEASE ∧ op ≠ .READDIR ∧ op ≠ .FSYNCDIR ∧ op ≠ .RELEASEDIR then
    .rejectAccess
  else .dispatch

/-- The reply each gate rejection sends (no handler runs); `none` for
`dispatch`. -/
def gateReply : GateResult → Option Int
  | .rejectProto => some (-EPROTO)
  | .rejectAccess => some (-EACCES)
  | .dispatch => none

/-! ### GETXATTR / LISTXATTR -/

/-- `common_getxattr`: path reconstruction and user callback, with the
buffer size handed to the callback. -/
def common_getxattr (hasCb : Bool) (pathOk : Bool) (cbRes : Nat → Int) (size : Nat) : Int :=
  if ¬pathOk then -ENOENT
  else if ¬hasCb then -ENOSYS
  else cbRes size

/-- The GETXATTR/LISTXATTR dispatch (`do_getxattr`): `size = 0` replies
with a size field (`do_getxattr_size`), `size ≠ 0` allocates a buffer of
exactly that size and replies with the data (`do_getxattr_read`).
Result: (reply error, reply size — the size field resp. the payload
length —, allocated buffer size). -/
def do_getxattr_m (hasCb : Bool) (pathOk : Bool) (cbRes : Nat → Int) (reqSize : Nat) :
    Int × Nat × Nat :=
  if reqSize ≠ 0 then
    let res := common_getxattr hasCb pathOk cbRes reqSize
    if 0 < res then (0, res.toNat, reqSize) else (res, 0, reqSize)
  else
    let res := common_getxattr hasCb pathOk cbRes 0
    if 0 ≤ res then (0, res.toNat, 0) else (res, 0, 0)

/-! ### INIT version negotiation -/

/-- Modelled from the spec: the compiled-in protocol version constants
`FUSE_KERNEL_VERSION` / `FUSE_KERNEL_MINOR_VERSION` come from
`fuse_kernel.h`, which is not under src/.  The spec says the core
"accepts majors 5 and 6 and its own compiled-in version, choosing the
lesser", so the compiled-in major exceeds 6; the fuse-2.3.0 release
shipped kernel protocol 7.2. -/
def FUSE_KERNEL_VERSION : Nat := 7

/-- Modelled from the spec: see `FUSE_KERNEL_VERSION`. -/
def FUSE_KERNEL_MINOR_VERSION : Nat := 2

/-- `do_init`: the legacy-v5 peer is recognized by `padding == 5`, which
moves the transmitted major into `minor` and takes `padding` as the
major; then majors 5 and 6 are pinned to minors 1, and anything else
gets the compiled-in version.  Returns the negotiated (major, minor)
put both in `f` and in the reply. -/
def do_init_negotiate (padding major minor : Nat) : Nat × Nat :=
  let argMajor := if padding = 5 then padding else major
  let _argMinor := if padding = 5 then major else minor
  if argMajor = 5 then (5, 1)
  else if argMajor = 6 then (6, 1)
  else (FUSE_KERNEL_VERSION, FUSE_KERNEL_MINOR_VERSION)

/-! ### Wellformedness predicates of the node directory -/

/-- No two live nodes share a `nodeid` (each node is hashed into the ID
index once). -/
def NodupIds (ns : List Node) : Prop := (idsOf ns).Nodup

/-- Identifier `0` is never a valid nodeid. -/
def NoZeroId (ns : List Node) : Prop := ∀ n ∈ ns, n.nodeid ≠ 0

/-- The root node is present, attached as "/" with no parent, and
referenced. -/
def RootOk (ns : List Node) : Prop :=
  ∃ r ∈ ns, r.nodeid = FUSE_ROOT_ID ∧ r.name = some "/" ∧ r.parent = 0 ∧
    1 ≤ r.refctr ∧ 1 ≤ r.nlookup

/-- The node-directory invariant carried through every operation. -/
def DirInv (st : FuseState) : Prop :=
  NodupIds st.nodes ∧ NoZeroId st.nodes ∧ RootOk st.nodes

/-- The opcodes exempt from the "allow_root" gate (they occur on
already-validated handles), plus INIT. -/
def allowRootExemptOps : List Opcode :=
  [.INIT, .READ, .WRITE, .FSYNC, .RELEASE, .READDIR, .FSYNCDIR, .RELEASEDIR]

/-! ### Concrete fixtures used by the witness theorems -/

/-- A regular-file node "/hello" with one open handle. -/
def nodeHello : Node :=
  { nodeid := 2, generation := 0, refctr := 1, parent := 1, name := some "hello",
    version := 7, nlookup := 1, open_count := 1, is_hidden := false }

/-- A directory with the root and the open file "/hello" (the root's
refcount counts its child). -/
def stTwo : FuseState :=
  { nodes := [{ rootNode with refctr := 2 }, nodeHello], ctr := 2, generation := 0,
    hidectr := 0 }

/-- User callbacks for the happy path: everything present, `rename` and
`unlink` succeed, and `getattr` reports "no such file" (so the first
hidden-name candidate is accepted). -/
def opsHappy : UserOps :=
  { hasGetattr := true, hasRename := true, hasUnlink := true, hasRelease := true,
    getattrRes := fun _ => -ENOENT, renameRes := fun _ _ => 0, unlinkRes := fun _ => 0 }

/-- "/hello" already renamed to its hidden name and still open once. -/
def stHidden : FuseState :=
  { nodes := [{ rootNode with refctr := 2 },
              { nodeHello with name := some (hiddenFmt 2 1), is_hidden := true }],
    ctr := 2, generation := 0, hidectr := 1 }

/-- The directory after a fresh LOOKUP of (1, "x") in `stTwo`: the new
node 3 is consed in front, the root's refcount counts it. -/
def stFresh : FuseState :=
  { nodes := [freshNode 3 0 1 "x" 9, { rootNode with refctr := 3 }, nodeHello],
    ctr := 3, generation := 0, hidectr := 0 }

/-- `stTwo` with only the id counter advanced: the net effect of a
fresh lookup followed by its cancel. -/
def stFresh2 : FuseState :=
  { nodes := [{ rootNode with refctr := 2 }, nodeHello], ctr := 3, generation := 0,
    hidectr := 0 }

/-! ## Lemmas about the index probes and updates -/

theorem getN_mem {ns : List Node} {j : Nat} {n : Node} (h : getN ns j = some n) :
    n ∈ ns ∧ n.nodeid = j :=
  ⟨List.mem_of_find?_eq_some h, by have h2 := List.find?_some h; simpa using h2⟩

theorem getN_eq_none_of {ns : List Node} {j : Nat} (h : ∀ n ∈ ns, n.nodeid ≠ j) :
    getN ns j = none := by
  apply List.find?_eq_none.mpr
  intro n hn
  simpa using h n hn

theorem getN_isSome_of_mem {ns : List Node} {n : Node} (hn : n ∈ ns) :
    (getN ns n.nodeid).isSome := by
  apply List.find?_isSome.mpr
  exact ⟨n, hn, by simp⟩

theorem getN_cons {a : Node} {ns : List Node} {j : Nat} :
    getN (a :: ns) j = if a.nodeid = j then some a else getN ns j := by
  by_cases h : a.nodeid = j
  · simp [getN, h]
  · simp [getN, h]

theorem lookupN_mem {ns : List Node} {p : Nat} {nm : String} {n : Node}
    (h : lookupN ns p nm = some n) : n ∈ ns ∧ n.parent = p ∧ n.name = some nm := by
  have h2 := List.find?_some h
  simp only [decide_eq_true_eq] at h2
  exact ⟨List.mem_of_find?_eq_some h, h2.1, h2.2⟩

theorem lookupN_eq_none_iff {ns : List Node} {p : Nat} {nm : String} :
    lookupN ns p nm = none ↔ ∀ n ∈ ns, ¬(n.parent = p ∧ n.name = some nm) := by
  rw [lookupN, List.find?_eq_none]
  simp

theorem lookupN_isSome_of_mem {ns : List Node} {n : Node} {p : Nat} {nm : String}
    (hn : n ∈ ns) (hp : n.parent = p) (hnm : n.name = some nm) :
    (lookupN ns p nm).isSome := by
  apply List.find?_isSome.mpr
  exact ⟨n, hn, by simp [hp, hnm]⟩

theorem nodeid_inj {ns : List Node} (hd : NodupIds ns) {a b : Node}
    (ha : a ∈ ns) (hb : b ∈ ns) (h : a.nodeid = b.nodeid) : a = b := by
  exact List.inj_on_of_nodup_map hd ha hb h

theorem getN_of_mem_nodup {ns : List Node} {n : Node} (hd : NodupIds ns) (hn : n ∈ ns) :
    getN ns n.nodeid = some n := by
  have hs := getN_isSome_of_mem hn
  obtain ⟨m, hm⟩ := Option.isSome_iff_exists.mp hs
  obtain ⟨hmem, hid⟩ := getN_mem hm
  rw [hm]
  exact congrArg some (nodeid_inj hd hmem hn hid)

theorem mem_updN_of_mem {ns : List Node} {j : Nat} {g : Node → Node} {n : Node}
    (hn : n ∈ ns) : (if n.nodeid = j then g n else n) ∈ updN ns j g :=
  List.mem_map_of_mem _ hn

theorem mem_updN_elim {ns : List Node} {j : Nat} {g : Node → Node} {m : Node}
    (hm : m ∈ updN ns j g) :
    ∃ n ∈ ns, m = if n.nodeid = j then g n else n := by
  obtain ⟨n, hn, he⟩ := List.mem_map.mp hm
  exact ⟨n, hn, he.symm⟩

theorem idsOf_updN {ns : List Node} {j : Nat} {g : Node → Node}
    (hg : ∀ n, (g n).nodeid = n.nodeid) : idsOf (updN ns j g) = idsOf ns := by
  simp only [idsOf, updN, List.map_map]
  apply List.map_congr_left
  intro n _
  by_cases h : n.nodeid = j <;> simp [h, hg]

theorem getN_updN {ns : List Node} {j : Nat} {g : Node → Node}
    (hg : ∀ n, (g n).nodeid = n.nodeid) (i : Nat) :
    getN (updN ns j g) i = (getN ns i).map (fun n => if n.nodeid = j then g n else n) := by
  unfold getN updN
  rw [List.find?_map]
  have hp : (fun n => decide (n.nodeid = i)) ∘ (fun n => if n.nodeid = j then g n else n)
      = fun n => decide (n.nodeid = i) := by
    funext n
    by_cases h : n.nodeid = j <;> simp [h, hg]
  rw [hp]

theorem lookupN_updN {ns : List Node} {j : Nat} {g : Node → Node}
    (hg : ∀ n, (g n).parent = n.parent ∧ (g n).name = n.name) (p : Nat) (nm : String) :
    lookupN (updN ns j g) p nm
      = (lookupN ns p nm).map (fun n => if n.nodeid = j then g n else n) := by
  unfold lookupN updN
  rw [List.find?_map]
  have hp : (fun n => decide (n.parent = p ∧ n.name = some nm)) ∘
        (fun n => if n.nodeid = j then g n else n)
      = fun n => decide (n.parent = p ∧ n.name = some nm) := by
    funext n
    by_cases h : n.nodeid = j <;> simp [h, (hg n).1, (hg n).2]
  rw [hp]

theorem updN_cons {a : Node} {ns : List Node} {j : Nat} {g : Node → Node} :
    updN (a :: ns) j g = (if a.nodeid = j then g a else a) :: updN ns j g := rfl

theorem updN_not_mem {ns : List Node} {j : Nat} {g : Node → Node}
    (h : ∀ n ∈ ns, n.nodeid ≠ j) : updN ns j g = ns := by
  unfold updN
  rw [show ns.map (fun n => if n.nodeid = j then g n else n) = ns.map id from ?_, List.map_id]
  apply List.map_congr_left
  intro n hn
  simp [h n hn]

theorem updN_comp {ns : List Node} {j : Nat} {f g : Node → Node}
    (hf : ∀ n, (f n).nodeid = n.nodeid) :
    updN (updN ns j f) j g = updN ns j (fun n => g (f n)) := by
  unfold updN
  rw [List.map_map]
  apply List.map_congr_left
  intro n _
  by_cases h : n.nodeid = j <;> simp [h, hf]

theorem updN_id {ns : List Node} {j : Nat} {g : Node → Node}
    (hg : ∀ n, g n = n) : updN ns j g = ns := by
  unfold updN
  rw [show ns.map (fun n => if n.nodeid = j then g n else n) = ns.map id from ?_, List.map_id]
  apply List.map_congr_left
  intro n _
  by_cases h : n.nodeid = j <;> simp [h, hg]

theorem updN_comm {ns : List Node} {i j : Nat} {f g : Node → Node} (hij : i ≠ j)
    (hf : ∀ n, (f n).nodeid = n.nodeid) (hg : ∀ n, (g n).nodeid = n.nodeid) :
    updN (updN ns i f) j g = updN (updN ns j g) i f := by
  unfold updN
  rw [List.map_map, List.map_map]
  apply List.map_congr_left
  intro n _
  by_cases hi : n.nodeid = i
  · have : n.nodeid ≠ j := by rw [hi]; exact hij
    simp [hi, this, hf, hij]
  · by_cases hj : n.nodeid = j <;> simp [hi, hj, hg, Ne.symm hij]

theorem delN_cons {a : Node} {ns : List Node} {j : Nat} :
    delN (a :: ns) j = if a.nodeid = j then delN ns j else a :: delN ns j := by
  by_cases h : a.nodeid = j <;> simp [delN, List.filter_cons, h]

theorem delN_not_mem {ns : List Node} {j : Nat} (h : ∀ n ∈ ns, n.nodeid ≠ j) :
    delN ns j = ns := by
  apply List.filter_eq_self.mpr
  intro n hn
  simpa using h n hn

theorem getN_delN {ns : List Node} (j i : Nat) :
    getN (delN ns j) i = if i = j then none else getN ns i := by
  unfold getN delN
  rw [List.find?_filter]
  by_cases hij : i = j
  · subst hij
    rw [List.find?_eq_none.mpr]
    · simp
    · intro n _
      simp
  · have hp : (fun n : Node => (decide (n.nodeid ≠ j) ∧ decide (n.nodeid = i) : Bool))
        = fun n => decide (n.nodeid = i) := by
      funext n
      by_cases h : n.nodeid = i
      · have hnj : n.nodeid ≠ j := by rw [h]; exact hij
        simp [h, hnj, hij]
      · simp [h]
    rw [hp]
    simp [hij]

/-! ## `next_id` -/

theorem nextIdAux_fresh {ids : List Nat} :
    ∀ {fuel ctr gen c g}, nextIdAux ids fuel ctr gen = some (c, g) → c ≠ 0 ∧ c ∉ ids := by
  intro fuel
  induction fuel with
  | zero => intro ctr gen c g h; simp [nextIdAux] at h
  | succ fu ih =>
    intro ctr gen c g h
    simp only [nextIdAux] at h
    split at h
    · exact ih h
    · next hcond =>
      push_neg at hcond
      injection h with h1
      injection h1 with hc hg
      subst hc
      exact ⟨hcond.1, hcond.2⟩

theorem nextIdAux_gen {ids : List Nat} :
    ∀ {fuel ctr gen c g}, fuel ≤ W64 → ctr < W64 →
      nextIdAux ids fuel ctr gen = some (c, g) →
      (g = gen ∧ ctr < c ∧ c < W64 ∧ c ≤ ctr + fuel) ∨
      (g = gen + 1 ∧ 0 < c ∧ c + W64 ≤ ctr + fuel) := by
  intro fuel
  induction fuel with
  | zero => intro ctr gen c g _ _ h; simp [nextIdAux] at h
  | succ fu ih =>
    intro ctr gen c g hfu hctr h
    have hW : 0 < W64 := by unfold W64; positivity
    simp only [nextIdAux] at h
    by_cases hz : (ctr + 1) % W64 = 0
    · have hwrap : ctr + 1 = W64 := by
        rcases Nat.lt_or_ge (ctr + 1) W64 with hlt | hge
        · rw [Nat.mod_eq_of_lt hlt] at hz; omega
        · omega
      rw [hz] at h
      simp only [reduceIte, true_or, if_true, eq_self_iff_true] at h
      have := ih (by omega) hW h
      rcases this with ⟨hg, hc0, hcW, hcb⟩ | ⟨hg, hc0, hcb⟩
      · right
        refine ⟨by omega, hc0, by omega⟩
      · exfalso
        omega
    · have hlt : ctr + 1 < W64 := by
        rcases Nat.lt_or_ge (ctr + 1) W64 with hlt | hge
        · exact hlt
        · have : ctr + 1 = W64 := by omega
          rw [this] at hz
          simp at hz
      rw [Nat.mod_eq_of_lt hlt] at h
      rw [if_neg (by omega : ¬ ctr + 1 = 0)] at h
      by_cases hmem : ctr + 1 ∈ ids
      · rw [if_pos (Or.inr hmem)] at h
        have := ih (by omega) hlt h
        rcases this with ⟨hg, hc0, hcW, hcb⟩ | ⟨hg, hc0, hcb⟩
        · left; exact ⟨hg, by omega, hcW, by omega⟩
        · right; exact ⟨hg, hc0, by omega⟩
      · rw [if_neg (by push_neg; exact ⟨by omega, hmem⟩)] at h
        injection h with h1
        injection h1 with hc hg
        left
        exact ⟨hg.symm, by omega, by omega, by omega⟩

theorem next_id_fresh {st : FuseState} {c : Nat} {st1 : FuseState}
    (h : next_id st = some (c, st1)) :
    c ≠ 0 ∧ c ∉ idsOf st.nodes ∧ st1.nodes = st.nodes ∧ st1.ctr = c := by
  unfold next_id at h
  cases hx : nextIdAux (idsOf st.nodes) W64 st.ctr st.generation with
  | none => rw [hx] at h; simp at h
  | some cg =>
    rw [hx] at h
    simp only [Option.map_some', Option.some.injEq, Prod.mk.injEq] at h
    have hc : cg.1 = c := h.1
    have hst : ({ st with ctr := cg.1, generation := cg.2 } : FuseState) = st1 := h.2
    have hf := nextIdAux_fresh (c := cg.1) (g := cg.2) (by rw [hx])
    subst hc
    rw [← hst]
    exact ⟨hf.1, hf.2, rfl, rfl⟩

/-- C1.  `next_id` issues an identifier that is nonzero and absent from
the ID index at the instant of issue, and it bumps `generation` exactly
when the counter wrapped past zero during the search — with fuel
`2^64` the search passes zero at most once, and it does so exactly when
the issued identifier does not exceed the previous counter value
(`c ≤ st.ctr`), which is the formal rendering of "the monotonic counter
wraps to zero". -/
theorem next_id_correct (st : FuseState) (c : Nat) (st1 : FuseState)
    (hctr : st.ctr < W64)
    (h : next_id st = some (c, st1)) :
    c ≠ 0 ∧ c ∉ idsOf st.nodes ∧
      (st1.generation = st.generation + 1 ↔ c ≤ st.ctr) ∧ st1.ctr = c := by
  have hfr := next_id_fresh h
  refine ⟨hfr.1, hfr.2.1, ?_, hfr.2.2.2⟩
  unfold next_id at h
  cases hx : nextIdAux (idsOf st.nodes) W64 st.ctr st.generation with
  | none => rw [hx] at h; simp at h
  | some cg =>
    rw [hx] at h
    simp only [Option.map_some', Option.some.injEq, Prod.mk.injEq] at h
    have hst : st1 = { st with ctr := cg.1, generation := cg.2 } := h.2.symm
    have hc : cg.1 = c := h.1
    have hg := nextIdAux_gen (le_refl W64) hctr hx
    subst hst
    subst hc
    simp only []
    rcases hg with ⟨hgen, hlt, _, _⟩ | ⟨hgen, hpos, hbound⟩
    · constructor <;> intro <;> omega
    · constructor <;> intro <;> omega

/-- Witness for C1 at the freshly constructed directory: the issued id
is 2 (skipping the in-use root id 1), nonzero and fresh, with no
generation bump. -/
theorem next_id_correct_witness :
    (2 : Nat) ≠ 0 ∧ (2 : Nat) ∉ idsOf initState.nodes ∧
      (({ initState with ctr := 2 } : FuseState).generation = initState.generation + 1 ↔
        (2 : Nat) ≤ initState.ctr) ∧
      ({ initState with ctr := 2 } : FuseState).ctr = 2 :=
  next_id_correct initState 2 { initState with ctr := 2 } (by decide) (by decide)

/-! ## Reply marshalling (C6) -/

/-- C6.  `send_reply` replaces an error that is ≤ -1000 or > 0 with
`-ERANGE`; the payload iovec is attached exactly when the (possibly
replaced) error is zero and the payload size is nonzero; a reply with a
nonzero error is the header alone. -/
theorem send_reply_error_discipline (headerSize : Nat) (error : Int) (argsize : Nat) :
    ((error ≤ -1000 ∨ 0 < error) → (send_reply_m headerSize error argsize).1 = -ERANGE) ∧
    ((send_reply_m headerSize error argsize).2.1 = 2 ↔
      ((send_reply_m headerSize error argsize).1 = 0 ∧ argsize ≠ 0)) ∧
    ((send_reply_m headerSize error argsize).1 ≠ 0 →
      (send_reply_m headerSize error argsize).2.1 = 1 ∧
      (send_reply_m headerSize error argsize).2.2 = headerSize) := by
  unfold send_reply_m
  by_cases hr : error ≤ -1000 ∨ 0 < error
  · rw [if_pos hr]
    by_cases ha : argsize = 0 <;> simp [ha, ERANGE]
  · rw [if_neg hr]
    push_neg at hr
    by_cases he : error = 0
    · by_cases ha : argsize = 0 <;> simp [he, ha, hr]
    · by_cases ha : argsize = 0 <;> simp [he, ha, hr]

/-- Witness for C6 at a positive (out-of-range) error value with a
nonzero payload: the error is forced to `-ERANGE` and the reply is the
header alone. -/
theorem send_reply_error_discipline_witness :
    ((5 : Int) ≤ -1000 ∨ (0 : Int) < 5) ∧ (send_reply_m 16 5 3).1 = -ERANGE ∧
      (send_reply_m 16 5 3).2.1 = 1 ∧ (send_reply_m 16 5 3).2.2 = 16 := by
  refine ⟨Or.inr (by norm_num), (send_reply_error_discipline 16 5 3).1 (Or.inr (by norm_num)),
    (send_reply_error_discipline 16 5 3).2.2 ?_⟩
  rw [(send_reply_error_discipline 16 5 3).1 (Or.inr (by norm_num))]
  decide

/-! ## The allow_root gate (C7) -/

/-- C7.  With "allow_root" set (and the INIT handshake done), a request
whose uid is neither the filesystem owner's nor 0 is answered with
`-EACCES` and dispatched to no per-opcode handler (and hence to no user
callback) exactly when its opcode is none of INIT, READ, WRITE, FSYNC,
RELEASE, READDIR, FSYNCDIR, RELEASEDIR; requests with one of those
opcodes, or with the owner's or root's uid, pass the gate and are
dispatched. -/
theorem allow_root_gate (owner uid : Nat) (op : Opcode) :
    (processGate true true owner uid op = .rejectAccess ↔
      (uid ≠ owner ∧ uid ≠ 0 ∧ op ∉ allowRootExemptOps)) ∧
    (processGate true true owner uid op = .rejectAccess →
      gateReply (processGate true true owner uid op) = some (-EACCES)) ∧
    ((uid = owner ∨ uid = 0 ∨ op ∈ allowRootExemptOps) →
      processGate true true owner uid op = .dispatch) := by
  unfold processGate gateReply allowRootExemptOps
  by_cases h1 : uid = owner
  · simp [h1]
  · by_cases h2 : uid = 0
    · simp [h1, h2]
    · cases op <;> simp [h1, h2]

/-- Witness for C7: uid 5 (neither owner 3 nor 0) sending LOOKUP is
rejected with `-EACCES`, while the same uid sending READ passes. -/
theorem allow_root_gate_witness :
    processGate true true 3 5 .LOOKUP = .rejectAccess ∧
    gateReply (processGate true true 3 5 .LOOKUP) = some (-EACCES) ∧
    processGate true true 3 5 .READ = .dispatch := by
  refine ⟨(allow_root_gate 3 5 .LOOKUP).1.mpr (by decide), ?_, ?_⟩
  · exact (allow_root_gate 3 5 .LOOKUP).2.1 ((allow_root_gate 3 5 .LOOKUP).1.mpr (by decide))
  · exact (allow_root_gate 3 5 .READ).2.2 (Or.inr (Or.inr (by decide)))

/-! ## GETXATTR / LISTXATTR (C8) -/

/-- Counterexample for C8 as stated: with a requested buffer of 10 bytes
and a user callback reporting 15 bytes (a size exceeding the requested
buffer), the dispatcher performs no check: it replies success (error 0)
with length 15, not a "range" error.  (`do_listxattr` has the identical
structure.) -/
theorem getxattr_no_range_check_counterexample :
    do_getxattr_m true true (fun _ => 15) 10 = (0, 15, 10) ∧ (0 : Int) ≠ -ERANGE := by
  constructor
  · decide
  · decide

/-- C8 (amended).  GETXATTR/LISTXATTR: with `size = 0` the reply carries
a size field equal to the (non-negative) length the callback reports;
with `size ≠ 0` a buffer of exactly `size` bytes is allocated and a
positive callback result is replied as the payload length with error 0;
a negative callback result — in particular `-ERANGE`, which the user
callback is expected to return itself when its value exceeds the buffer
— is forwarded verbatim as the reply error; the dispatcher itself does
not detect overflow. -/
theorem getxattr_modes (cbRes : Nat → Int) (reqSize : Nat) :
    (0 ≤ cbRes 0 → do_getxattr_m true true cbRes 0 = (0, (cbRes 0).toNat, 0)) ∧
    (reqSize ≠ 0 →
      (do_getxattr_m true true cbRes reqSize).2.2 = reqSize ∧
      (0 < cbRes reqSize →
        do_getxattr_m true true cbRes reqSize = (0, (cbRes reqSize).toNat, reqSize)) ∧
      (cbRes reqSize < 0 →
        do_getxattr_m true true cbRes reqSize = (cbRes reqSize, 0, reqSize))) := by
  unfold do_getxattr_m common_getxattr
  refine ⟨?_, ?_⟩
  · intro h0
    simp [h0]
  · intro hs
    rw [if_pos hs]
    have hcb : (if ¬(true = true) then -ENOENT else if ¬(true = true) then -ENOSYS
        else cbRes reqSize) = cbRes reqSize := by simp
    rw [hcb]
    simp only []
    refine ⟨?_, ?_, ?_⟩
    · by_cases hp : 0 < cbRes reqSize
      · rw [if_pos hp]
      · rw [if_neg hp]
    · intro hpos
      rw [if_pos hpos]
    · intro hneg
      rw [if_neg (by omega : ¬ (0:Int) < cbRes reqSize)]

/-- Witness for C8 (amended): a callback returning `-ERANGE` for an
8-byte request buffer has its error forwarded verbatim; a zero-size
request with a 27-byte value replies size 27. -/
theorem getxattr_modes_witness :
    do_getxattr_m true true (fun _ => -ERANGE) 8 = (-ERANGE, 0, 8) ∧
    do_getxattr_m true true (fun _ => 27) 0 = (0, 27, 0) := by
  constructor
  · exact ((getxattr_modes (fun _ => -ERANGE) 8).2 (by decide)).2.2 (by decide)
  · exact (getxattr_modes (fun _ => 27) 0).1 (by decide)

/-! ## INIT version negotiation (C9) -/

/-- Counterexample for C9 as stated: the claim's blanket sentence "the
negotiated protocol version is the lesser of the peer's version and the
compiled-in version" fails for a peer major below 5: INIT with major 4
is answered with the compiled-in major (7), not with min 4 7 = 4. -/
theorem do_init_lesser_counterexample :
    (do_init_negotiate 0 4 0).1 = FUSE_KERNEL_VERSION ∧
    min 4 FUSE_KERNEL_VERSION = 4 ∧ (do_init_negotiate 0 4 0).1 ≠ min 4 FUSE_KERNEL_VERSION := by
  refine ⟨by decide, by decide, by decide⟩

/-- C9 (amended).  INIT negotiation: a peer major of 5 — transmitted
directly or through the legacy `padding = 5` header form — is answered
(5, 1); a peer major of 6 is answered (6, 1); any other peer major
(above or below) is answered with the compiled-in (major, minor).  This
equals "the lesser of peer and compiled-in" only for majors 5 and 6. -/
theorem do_init_negotiation (padding major minor : Nat) :
    (padding = 5 → do_init_negotiate padding major minor = (5, 1)) ∧
    (padding ≠ 5 → major = 5 → do_init_negotiate padding major minor = (5, 1)) ∧
    (padding ≠ 5 → major = 6 → do_init_negotiate padding major minor = (6, 1)) ∧
    (padding ≠ 5 → major ≠ 5 → major ≠ 6 →
      do_init_negotiate padding major minor
        = (FUSE_KERNEL_VERSION, FUSE_KERNEL_MINOR_VERSION)) := by
  unfold do_init_negotiate
  refine ⟨?_, ?_, ?_, ?_⟩
  · intro hp; simp [hp]
  · intro hp h5; simp [hp, h5]
  · intro hp h6; simp [hp, h6]
  · intro hp h5 h6; simp [hp, h5, h6]

/-- Witness for C9 (amended), the spec's scenario 6: INIT with major 5
(and any minor) is answered major 5, minor 1. -/
theorem do_init_negotiation_witness : do_init_negotiate 0 5 3 = (5, 1) :=
  (do_init_negotiation 0 5 3).2.1 (by decide) rfl

/-! ## `rename_node` with a missing source (C10) -/

/-- C10.  When no attached node exists at (olddir, oldname),
`rename_node` returns 0 and the state — both indices — is unchanged,
even when `hide` is requested and even when an attached node exists at
(newdir, newname): the null check on the source precedes every use of
the target probe. -/
theorem rename_node_missing_source (st : FuseState) (olddir : Nat) (oldname : String)
    (newdir : Nat) (newname : String) (hide : Bool)
    (h : lookupN st.nodes olddir oldname = none) :
    rename_node st olddir oldname newdir newname hide = some (0, st) := by
  unfold rename_node
  rw [h]

/-- Witness for C10: in the two-node directory, renaming the absent
name "nosuch" onto the existing, open "/hello" with `hide` requested
returns 0 and leaves the state intact. -/
theorem rename_node_missing_source_witness :
    rename_node stTwo 1 "nosuch" 1 "hello" true = some (0, stTwo) :=
  rename_node_missing_source stTwo 1 "nosuch" 1 "hello" true (by decide)

/-! ## Path reconstruction (C5) -/

theorem pathWalk_render (ns : List Node) :
    ∀ (fuel j : Nat) (pos : Int) (acc : String) (ch : List String),
      0 ≤ pos → specChain ns fuel j = some ch →
      pathWalk ns fuel j pos acc =
        if (chainCost ch : Int) ≤ pos then some (renderAux ch acc) else none := by
  intro fuel
  induction fuel with
  | zero => intro j pos acc ch _ hch; simp [specChain] at hch
  | succ fu ih =>
    intro j pos acc ch hpos hch
    simp only [specChain] at hch
    simp only [pathWalk]
    cases hg : getN ns j with
    | none => rw [hg] at hch; simp at hch
    | some n =>
      simp only [hg] at hch ⊢
      by_cases hroot : n.nodeid = FUSE_ROOT_ID
      · rw [if_pos hroot] at hch
        rw [if_pos hroot]
        injection hch with hch1
        subst hch1
        rw [if_pos (by simpa [chainCost] using hpos)]
        rfl
      · rw [if_neg hroot] at hch
        rw [if_neg hroot]
        cases hnm : n.name with
        | none => rw [hnm] at hch; simp at hch
        | some nm =>
          simp only [hnm] at hch ⊢
          simp only [Option.map_eq_some'] at hch
          obtain ⟨ch1, hch1, hcons⟩ := hch
          subst hcons
          unfold add_name
          by_cases hover : pos - (nm.length : Int) ≤ 0
          · rw [if_pos hover]
            rw [if_neg (by simp [chainCost]; omega)]
          · rw [if_neg hover]
            simp only []
            rw [ih n.parent (pos - nm.length - 1) ("/" ++ nm ++ acc) ch1 (by omega) hch1]
            by_cases hc : (chainCost ch1 : Int) ≤ pos - nm.length - 1
            · rw [if_pos hc, if_pos (by simp [chainCost]; omega)]
              rfl
            · rw [if_neg hc, if_neg (by simp [chainCost]; omega)]

theorem pathWalk_detached (ns : List Node) :
    ∀ (fuel j : Nat) (pos : Int) (acc : String),
      ancestorDetached ns fuel j = true → pathWalk ns fuel j pos acc = none := by
  intro fuel
  induction fuel with
  | zero => intro j pos acc h; simp [ancestorDetached] at h
  | succ fu ih =>
    intro j pos acc h
    simp only [ancestorDetached] at h
    simp only [pathWalk]
    cases hg : getN ns j with
    | none => rfl
    | some n =>
      simp only [hg] at h ⊢
      by_cases hroot : n.nodeid = FUSE_ROOT_ID
      · rw [if_pos hroot] at h; simp at h
      · rw [if_neg hroot] at h
        rw [if_neg hroot]
        cases hnm : n.name with
        | none => rfl
        | some nm =>
          simp only [hnm] at h ⊢
          unfold add_name
          by_cases hover : pos - (nm.length : Int) ≤ 0
          · rw [if_pos hover]
          · rw [if_neg hover]
            simp only []
            exact ih n.parent (pos - nm.length - 1) ("/" ++ nm ++ acc) h

/-- C5.  `get_path_name` refines the spec's description of path
assembly: when the parent chain of `j` is well formed (reaches the root,
yielding component list `ch`, the root's own name never among them), the
result is exactly the rightmost-leftwards rendering `/cn/.../c1[/leaf]`
— "/" when that string is empty — provided it fits the 4096-byte scratch
buffer (each component costs its length plus one for the slash, and one
byte is reserved for the terminating NUL); when it does not fit, or when
any ancestor on the chain is detached (`name == NULL`), reconstruction
fails with no value. -/
theorem get_path_name_correct (ns : List Node) (fuel j : Nat) (leaf : Option String) :
    (∀ ch, specChain ns fuel j = some ch →
      get_path_name ns fuel j leaf =
        if chainCost ch + leafCost leaf ≤ FUSE_MAX_PATH - 1
        then some (if renderAux ch (leafRender leaf) = "" then "/"
                   else renderAux ch (leafRender leaf))
        else none) ∧
    (ancestorDetached ns fuel j = true → get_path_name ns fuel j leaf = none) := by
  constructor
  · intro ch hch
    cases leaf with
    | none =>
      unfold get_path_name
      simp only [leafCost, leafRender]
      rw [pathWalk_render ns fuel j ((FUSE_MAX_PATH : Int) - 1) "" ch
        (by unfold FUSE_MAX_PATH; norm_num) hch]
      by_cases hc : (chainCost ch : Int) ≤ (FUSE_MAX_PATH : Int) - 1
      · rw [if_pos hc, if_pos (by unfold FUSE_MAX_PATH at hc ⊢; omega)]
      · rw [if_neg hc, if_neg (by unfold FUSE_MAX_PATH at hc ⊢; omega)]
    | some nm =>
      unfold get_path_name add_name
      simp only [leafCost, leafRender]
      by_cases hover : (FUSE_MAX_PATH : Int) - 1 - (nm.length : Int) ≤ 0
      · rw [if_pos hover]
        rw [if_neg (by unfold FUSE_MAX_PATH at hover ⊢; omega)]
      · rw [if_neg hover]
        simp only []
        rw [pathWalk_render ns fuel j ((FUSE_MAX_PATH : Int) - 1 - (nm.length : Int) - 1)
          ("/" ++ nm ++ "") ch (by omega) hch]
        by_cases hc : (chainCost ch : Int) ≤ (FUSE_MAX_PATH : Int) - 1 - (nm.length : Int) - 1
        · rw [if_pos hc, if_pos (by unfold FUSE_MAX_PATH at hc ⊢; omega)]
          have he : ("/" ++ nm ++ "") = "/" ++ nm := by simp
          rw [he]
        · rw [if_neg hc, if_neg (by unfold FUSE_MAX_PATH at hc ⊢; omega)]
  · intro hdet
    cases leaf with
    | none =>
      simp only [get_path_name]
      rw [pathWalk_detached ns fuel j ((FUSE_MAX_PATH : Int) - 1) "" hdet]
    | some nm =>
      simp only [get_path_name, add_name]
      by_cases hover : (FUSE_MAX_PATH : Int) - 1 - (nm.length : Int) ≤ 0
      · rw [if_pos hover]
      · rw [if_neg hover]
        simp only []
        rw [pathWalk_detached ns fuel j ((FUSE_MAX_PATH : Int) - 1 - (nm.length : Int) - 1)
          ("/" ++ nm ++ "") hdet]

/-- Witness for C5 in the two-node directory: the chain of "/hello" is
`["hello"]`; reconstruction of node 2 with no leaf yields "/hello", and
a detached-ancestor reconstruction in a directory whose "hello" node was
unhashed fails. -/
theorem get_path_name_correct_witness :
    get_path_name stTwo.nodes FUSE_MAX_PATH 2 none = some "/hello" := by
  have h := (get_path_name_correct stTwo.nodes FUSE_MAX_PATH 2 none).1 ["hello"] (by decide)
  rw [h]
  decide

/-! ## The root invariant (C2) -/

theorem nodupIds_updN {ns : List Node} {j : Nat} {g : Node → Node}
    (hg : ∀ n, (g n).nodeid = n.nodeid) (h : NodupIds ns) : NodupIds (updN ns j g) := by
  unfold NodupIds
  rw [idsOf_updN hg]
  exact h

theorem noZero_updN {ns : List Node} {j : Nat} {g : Node → Node}
    (hg : ∀ n, (g n).nodeid = n.nodeid) (h : NoZeroId ns) : NoZeroId (updN ns j g) := by
  intro m hm
  obtain ⟨n, hn, he⟩ := mem_updN_elim hm
  subst he
  by_cases hc : n.nodeid = j
  · rw [if_pos hc, hg]; exact h n hn
  · rw [if_neg hc]; exact h n hn

theorem nodupIds_delN {ns : List Node} {j : Nat} (h : NodupIds ns) : NodupIds (delN ns j) := by
  exact List.Nodup.sublist (List.Sublist.map Node.nodeid (List.filter_sublist ns)) h

theorem noZero_delN {ns : List Node} {j : Nat} (h : NoZeroId ns) : NoZeroId (delN ns j) := by
  intro m hm
  exact h m (List.mem_of_mem_filter hm)

theorem rootOk_updN_of_ne {ns : List Node} {j : Nat} {g : Node → Node}
    (_hg : ∀ n, (g n).nodeid = n.nodeid) (hj : j ≠ FUSE_ROOT_ID) (h : RootOk ns) :
    RootOk (updN ns j g) := by
  obtain ⟨r, hr, hid, hnm, hp, hrc, hnl⟩ := h
  refine ⟨r, ?_, hid, hnm, hp, hrc, hnl⟩
  have hmem := mem_updN_of_mem (g := g) (j := j) hr
  rwa [if_neg (by rw [hid]; exact Ne.symm hj)] at hmem

theorem rootOk_updN_mono {ns : List Node} {j : Nat} {g : Node → Node}
    (hg : ∀ n, (g n).nodeid = n.nodeid ∧ (g n).name = n.name ∧ (g n).parent = n.parent ∧
      n.refctr ≤ (g n).refctr ∧ n.nlookup ≤ (g n).nlookup)
    (h : RootOk ns) : RootOk (updN ns j g) := by
  obtain ⟨r, hr, hid, hnm, hp, hrc, hnl⟩ := h
  by_cases hc : r.nodeid = j
  · refine ⟨g r, ?_, ?_, ?_, ?_, ?_, ?_⟩
    · have hmem := mem_updN_of_mem (g := g) (j := j) hr
      rwa [if_pos hc] at hmem
    · rw [(hg r).1, hid]
    · rw [(hg r).2.1, hnm]
    · rw [(hg r).2.2.1, hp]
    · exact le_trans hrc (hg r).2.2.2.1
    · exact le_trans hnl (hg r).2.2.2.2
  · refine ⟨r, ?_, hid, hnm, hp, hrc, hnl⟩
    have hmem := mem_updN_of_mem (g := g) (j := j) hr
    rwa [if_neg hc] at hmem

theorem rootOk_delN {ns : List Node} {j : Nat} (hj : j ≠ FUSE_ROOT_ID) (h : RootOk ns) :
    RootOk (delN ns j) := by
  obtain ⟨r, hr, hid, hnm, hp, hrc, hnl⟩ := h
  refine ⟨r, ?_, hid, hnm, hp, hrc, hnl⟩
  exact List.mem_filter.mpr ⟨hr, by simp [hid]; exact Ne.symm hj⟩

theorem getN_root {ns : List Node} (hd : NodupIds ns) (h : RootOk ns) :
    ∃ r, getN ns FUSE_ROOT_ID = some r ∧ r ∈ ns ∧ r.nodeid = FUSE_ROOT_ID ∧
      r.name = some "/" ∧ r.parent = 0 ∧ 1 ≤ r.refctr ∧ 1 ≤ r.nlookup := by
  obtain ⟨r, hr, hid, hnm, hp, hrc, hnl⟩ := h
  have hg : getN ns FUSE_ROOT_ID = some r := by
    rw [← hid]
    exact getN_of_mem_nodup hd hr
  exact ⟨r, hg, hr, hid, hnm, hp, hrc, hnl⟩

theorem unref_node_inv {st : FuseState} {j : Nat} {st1 : FuseState}
    (h : DirInv st) (hr : unref_node st j = some st1) : DirInv st1 := by
  obtain ⟨hnd, hz, hro⟩ := h
  unfold unref_node at hr
  cases hg : getN st.nodes j with
  | none => simp [hg] at hr
  | some n =>
    simp only [hg] at hr
    by_cases h0 : n.refctr = 0
    · rw [if_pos h0] at hr; simp at hr
    · rw [if_neg h0] at hr
      by_cases h1 : n.refctr - 1 = 0
      · rw [if_pos h1] at hr
        by_cases h2 : n.name ≠ none
        · rw [if_pos h2] at hr; simp at hr
        · rw [if_neg h2] at hr
          push_neg at h2
          injection hr with h3
          subst h3
          have hj1 : j ≠ FUSE_ROOT_ID := by
            intro he
            subst he
            obtain ⟨r, hgr, _, _, hrnm, _, _, _⟩ := getN_root hnd hro
            rw [hg] at hgr
            injection hgr with h4
            rw [← h4] at hrnm
            rw [h2] at hrnm
            exact Option.noConfusion hrnm
          refine ⟨?_, ?_, ?_⟩
          · exact nodupIds_delN (nodupIds_updN (fun _ => rfl) hnd)
          · exact noZero_delN (noZero_updN (fun _ => rfl) hz)
          · exact rootOk_delN hj1 (rootOk_updN_of_ne (fun _ => rfl) hj1 hro)
      · rw [if_neg h1] at hr
        injection hr with h3
        subst h3
        refine ⟨nodupIds_updN (fun _ => rfl) hnd, noZero_updN (fun _ => rfl) hz, ?_⟩
        by_cases hj1 : j = FUSE_ROOT_ID
        · subst hj1
          obtain ⟨r, hgr, hrmem, hrid, hrnm, hrp, hrrc, hrnl⟩ := getN_root hnd hro
          rw [hg] at hgr
          injection hgr with h4
          refine ⟨{ r with refctr := r.refctr - 1 }, ?_, hrid, hrnm, hrp, ?_, hrnl⟩
          · have hmem := mem_updN_of_mem
              (g := fun m => { m with refctr := m.refctr - 1 }) (j := FUSE_ROOT_ID) hrmem
            rwa [if_pos hrid] at hmem
          · rw [h4] at h1
            show 1 ≤ r.refctr - 1
            omega
        · exact rootOk_updN_of_ne (fun _ => rfl) hj1 hro

theorem unhash_name_root_none {st : FuseState} (h : DirInv st) :
    unhash_name st FUSE_ROOT_ID = none := by
  obtain ⟨hnd, hz, hro⟩ := h
  obtain ⟨r, hgr, hrmem, hrid, hrnm, hrp, _, _⟩ := getN_root hnd hro
  have h0 : getN st.nodes 0 = none := getN_eq_none_of (fun n hn => hz n hn)
  simp only [unhash_name, hgr, hrnm, hrp, unref_node, h0]

theorem unhash_name_ne_root {st st1 : FuseState} {j : Nat} (h : DirInv st)
    (hr : unhash_name st j = some st1) : j ≠ FUSE_ROOT_ID := by
  intro he
  subst he
  rw [unhash_name_root_none h] at hr
  exact Option.noConfusion hr

theorem unhash_name_inv {st st1 : FuseState} {j : Nat} (h : DirInv st)
    (hr : unhash_name st j = some st1) : DirInv st1 := by
  have hj := unhash_name_ne_root h hr
  obtain ⟨hnd, hz, hro⟩ := h
  unfold unhash_name at hr
  cases hg : getN st.nodes j with
  | none => simp [hg] at hr
  | some n =>
    simp only [hg] at hr
    cases hnm : n.name with
    | none =>
      simp only [hnm] at hr
      injection hr with h1
      subst h1
      exact ⟨hnd, hz, hro⟩
    | some s =>
      simp only [hnm] at hr
      cases hu : unref_node st n.parent with
      | none => simp [hu] at hr
      | some stu =>
        simp only [hu] at hr
        injection hr with h1
        subst h1
        obtain ⟨hnd1, hz1, hro1⟩ := unref_node_inv ⟨hnd, hz, hro⟩ hu
        exact ⟨nodupIds_updN (fun _ => rfl) hnd1, noZero_updN (fun _ => rfl) hz1,
          rootOk_updN_of_ne (fun _ => rfl) hj hro1⟩

theorem hash_name_inv {st st1 : FuseState} {j parent : Nat} {nm : String}
    (h : DirInv st) (hj : j ≠ FUSE_ROOT_ID)
    (hr : hash_name st j parent nm = some st1) : DirInv st1 := by
  obtain ⟨hnd, hz, hro⟩ := h
  unfold hash_name at hr
  cases hg : getN st.nodes parent with
  | none => simp [hg] at hr
  | some p =>
    simp only [hg] at hr
    injection hr with h1
    subst h1
    refine ⟨?_, ?_, ?_⟩
    · exact nodupIds_updN (fun _ => rfl) (nodupIds_updN (fun _ => rfl) hnd)
    · exact noZero_updN (fun _ => rfl) (noZero_updN (fun _ => rfl) hz)
    · exact rootOk_updN_of_ne (fun _ => rfl) hj
        (rootOk_updN_mono (fun n => ⟨rfl, rfl, rfl, Nat.le_succ _, le_refl _⟩) hro)

theorem find_node_inv {st st1 : FuseState} {parent version j : Nat} {nm : String}
    (h : DirInv st) (hr : find_node st parent nm version = some (st1, j)) : DirInv st1 := by
  obtain ⟨hnd, hz, hro⟩ := h
  unfold find_node at hr
  cases hl : lookupN st.nodes parent nm with
  | some n =>
    simp only [hl] at hr
    have hst : ({ st with nodes := updN st.nodes n.nodeid (fun m => { m with version := version, nlookup := m.nlookup + 1 }) } : FuseState) = st1 := by
      injection hr with h1
      exact (Prod.ext_iff.mp h1).1
    rw [← hst]
    exact ⟨nodupIds_updN (fun _ => rfl) hnd, noZero_updN (fun _ => rfl) hz,
      rootOk_updN_mono (fun m => ⟨rfl, rfl, rfl, le_refl _, Nat.le_succ _⟩) hro⟩
  | none =>
    simp only [hl] at hr
    cases hni : next_id st with
    | none => simp [hni] at hr
    | some cs =>
      obtain ⟨c, stc⟩ := cs
      simp only [hni] at hr
      cases hgp : getN stc.nodes parent with
      | none => simp [hgp] at hr
      | some p =>
        simp only [hgp] at hr
        have hf := next_id_fresh hni
        obtain ⟨hc0, hcfree, hceq, _⟩ := hf
        have hst : ({ stc with nodes := freshNode c stc.generation parent nm version :: updN stc.nodes parent (fun m => { m with refctr := m.refctr + 1 }) } : FuseState) = st1 := by
          injection hr with h1
          exact (Prod.mk.injEq .. ▸ h1 : _ ∧ _).1
        rw [← hst]
        have hups : idsOf (updN stc.nodes parent (fun m => { m with refctr := m.refctr + 1 }))
            = idsOf stc.nodes :=
          idsOf_updN (g := fun m => { m with refctr := m.refctr + 1 }) (fun _ => rfl)
        refine ⟨?_, ?_, ?_⟩
        · show NodupIds (_ :: _)
          unfold NodupIds
          rw [show idsOf (freshNode c stc.generation parent nm version :: updN stc.nodes parent (fun m => { m with refctr := m.refctr + 1 })) = c :: idsOf (updN stc.nodes parent (fun m => { m with refctr := m.refctr + 1 })) from rfl]
          rw [List.nodup_cons, hups, hceq]
          exact ⟨hcfree, hnd⟩
        · intro m hm
          rcases List.mem_cons.mp hm with he | hm2
          · rw [he]; exact hc0
          · have hz1 : NoZeroId stc.nodes := by rw [hceq]; exact hz
            have hz2 : NoZeroId (updN stc.nodes parent
                (fun m => { m with refctr := m.refctr + 1 })) :=
              noZero_updN (fun _ => rfl) hz1
            exact hz2 m hm2
        · have hro1 : RootOk stc.nodes := by rw [hceq]; exact hro
          obtain ⟨r, hr2, hid, hnm2, hp2, hrc, hnl⟩ :=
            rootOk_updN_mono (j := parent)
              (g := fun m => { m with refctr := m.refctr + 1 })
              (fun m => ⟨rfl, rfl, rfl, Nat.le_succ _, le_refl _⟩) hro1
          exact ⟨r, List.mem_cons_of_mem _ hr2, hid, hnm2, hp2, hrc, hnl⟩

theorem forget_node_inv {st st1 : FuseState} {j nl : Nat}
    (h : DirInv st) (hr : forget_node st j nl = some st1) : DirInv st1 := by
  unfold forget_node at hr
  by_cases hj : j = FUSE_ROOT_ID
  · rw [if_pos hj] at hr
    injection hr with h1
    subst h1
    exact h
  · rw [if_neg hj] at hr
    obtain ⟨hnd, hz, hro⟩ := h
    cases hg : getN st.nodes j with
    | none => simp [hg] at hr
    | some n =>
      simp only [hg] at hr
      by_cases hless : n.nlookup < nl
      · rw [if_pos hless] at hr; simp at hr
      · rw [if_neg hless] at hr
        have hinv1 : DirInv { st with nodes := updN st.nodes j (fun m => { m with nlookup := m.nlookup - nl }) } :=
          ⟨nodupIds_updN (fun _ => rfl) hnd, noZero_updN (fun _ => rfl) hz,
            rootOk_updN_of_ne (fun _ => rfl) hj hro⟩
        by_cases hzero : n.nlookup - nl = 0
        · rw [if_pos hzero] at hr
          cases hu : unhash_name { st with nodes := updN st.nodes j (fun m => { m with nlookup := m.nlookup - nl }) } j with
          | none => simp [hu] at hr
          | some st2 =>
            simp only [hu] at hr
            exact unref_node_inv (unhash_name_inv hinv1 hu) hr
        · rw [if_neg hzero] at hr
          injection hr with h1
          subst h1
          exact hinv1

theorem forget_node_old_inv {st st1 : FuseState} {j version : Nat}
    (h : DirInv st) (hr : forget_node_old st j version = some st1) : DirInv st1 := by
  unfold forget_node_old at hr
  cases hg : getN st.nodes j with
  | none =>
    simp only [hg] at hr
    injection hr with h1
    subst h1
    exact h
  | some n =>
    simp only [hg] at hr
    by_cases hc : n.version = version ∧ j ≠ FUSE_ROOT_ID
    · rw [if_pos hc] at hr
      obtain ⟨hnd, hz, hro⟩ := h
      have hinv1 : DirInv { st with nodes := updN st.nodes j (fun m => { m with version := 0 }) } :=
        ⟨nodupIds_updN (fun _ => rfl) hnd, noZero_updN (fun _ => rfl) hz,
          rootOk_updN_of_ne (fun _ => rfl) hc.2 hro⟩
      cases hu : unhash_name { st with nodes := updN st.nodes j (fun m => { m with version := 0 }) } j with
      | none => simp [hu] at hr
      | some st2 =>
        simp only [hu] at hr
        exact unref_node_inv (unhash_name_inv hinv1 hu) hr
    · rw [if_neg hc] at hr
      injection hr with h1
      subst h1
      exact h

theorem remove_node_inv {st st1 : FuseState} {dir : Nat} {nm : String}
    (h : DirInv st) (hr : remove_node st dir nm = some st1) : DirInv st1 := by
  unfold remove_node at hr
  cases hl : lookupN st.nodes dir nm with
  | none =>
    simp only [hl] at hr
    injection hr with h1
    subst h1
    exact h
  | some n =>
    simp only [hl] at hr
    exact unhash_name_inv h hr

theorem renameRehash_inv {st : FuseState} {j newdir : Nat} {newname : String} {hide : Bool}
    {err : Int} {st1 : FuseState} (h : DirInv st)
    (hr : renameRehash st j newdir newname hide = some (err, st1)) : DirInv st1 := by
  unfold renameRehash at hr
  cases hu : unhash_name st j with
  | none => simp [hu] at hr
  | some sta =>
    simp only [hu] at hr
    have hj := unhash_name_ne_root h hu
    have hA := unhash_name_inv h hu
    cases hh : hash_name sta j newdir newname with
    | none => simp [hh] at hr
    | some stb =>
      simp only [hh] at hr
      have hB := hash_name_inv hA hj hh
      have hst : (if hide then { stb with nodes := updN stb.nodes j (fun m => { m with is_hidden := true }) } else stb) = st1 := by
        injection hr with h1
        exact (Prod.ext_iff.mp h1).2
      rw [← hst]
      by_cases hh2 : hide
      · rw [if_pos hh2]
        obtain ⟨hnd, hz, hro⟩ := hB
        exact ⟨nodupIds_updN (fun _ => rfl) hnd, noZero_updN (fun _ => rfl) hz,
          rootOk_updN_mono (fun m => ⟨rfl, rfl, rfl, le_refl _, le_refl _⟩) hro⟩
      · rw [if_neg hh2]
        exact hB

theorem rename_node_inv {st st1 : FuseState} {olddir newdir : Nat}
    {oldname newname : String} {hide : Bool} {err : Int}
    (h : DirInv st) (hr : rename_node st olddir oldname newdir newname hide
      = some (err, st1)) : DirInv st1 := by
  unfold rename_node at hr
  cases hl : lookupN st.nodes olddir oldname with
  | none =>
    simp only [hl] at hr
    injection hr with h1
    have hst : st = st1 := (Prod.ext_iff.mp h1).2
    rw [← hst]
    exact h
  | some n =>
    simp only [hl] at hr
    cases hl2 : lookupN st.nodes newdir newname with
    | some nn =>
      simp only [hl2] at hr
      by_cases hh : hide
      · rw [if_pos hh] at hr
        injection hr with h1
        have hst : st = st1 := (Prod.ext_iff.mp h1).2
        rw [← hst]
        exact h
      · rw [if_neg hh] at hr
        cases hu : unhash_name st nn.nodeid with
        | none => simp [hu] at hr
        | some sta =>
          simp only [hu] at hr
          exact renameRehash_inv (unhash_name_inv h hu) hr
    | none =>
      simp only [hl2] at hr
      exact renameRehash_inv h hr

theorem open_node_inv {st st1 : FuseState} {j : Nat}
    (h : DirInv st) (hr : open_node st j = some st1) : DirInv st1 := by
  unfold open_node at hr
  cases hg : getN st.nodes j with
  | none => simp [hg] at hr
  | some n =>
    simp only [hg] at hr
    injection hr with h1
    subst h1
    obtain ⟨hnd, hz, hro⟩ := h
    exact ⟨nodupIds_updN (fun _ => rfl) hnd, noZero_updN (fun _ => rfl) hz,
      rootOk_updN_mono (fun m => ⟨rfl, rfl, rfl, le_refl _, le_refl _⟩) hro⟩

theorem release_node_inv {st st1 : FuseState} {j : Nat} {b : Bool}
    (h : DirInv st) (hr : release_node st j = some (st1, b)) : DirInv st1 := by
  unfold release_node at hr
  cases hg : getN st.nodes j with
  | none => simp [hg] at hr
  | some n =>
    simp only [hg] at hr
    by_cases h0 : n.open_count = 0
    · rw [if_pos h0] at hr; simp at hr
    · rw [if_neg h0] at hr
      injection hr with h1
      rw [Prod.mk.injEq] at h1
      rw [← h1.1]
      obtain ⟨hnd, hz, hro⟩ := h
      exact ⟨nodupIds_updN (fun _ => rfl) hnd, noZero_updN (fun _ => rfl) hz,
        rootOk_updN_mono (fun m => ⟨rfl, rfl, rfl, le_refl _, le_refl _⟩) hro⟩

theorem applyOp_inv {st st1 : FuseState} {op : DirOp}
    (h : DirInv st) (hr : applyOp st op = some st1) : DirInv st1 := by
  cases op with
  | find p nm v =>
    simp only [applyOp] at hr
    cases hf : find_node st p nm v with
    | none => simp [hf] at hr
    | some r =>
      rw [hf] at hr
      simp only [Option.map_some'] at hr
      injection hr with h1
      rw [← h1]
      exact find_node_inv h (by rw [hf])
  | forget j nl => exact forget_node_inv h hr
  | forgetOld j v => exact forget_node_old_inv h hr
  | remove d nm => exact remove_node_inv h hr
  | rename a b c d hide =>
    simp only [applyOp] at hr
    cases hf : rename_node st a b c d hide with
    | none => simp [hf] at hr
    | some r =>
      rw [hf] at hr
      simp only [Option.map_some'] at hr
      injection hr with h1
      rw [← h1]
      exact rename_node_inv h (by rw [hf])
  | openBk j => exact open_node_inv h hr
  | releaseBk j =>
    simp only [applyOp] at hr
    cases hf : release_node st j with
    | none => simp [hf] at hr
    | some r =>
      rw [hf] at hr
      simp only [Option.map_some'] at hr
      injection hr with h1
      rw [← h1]
      exact release_node_inv h (by rw [hf])

theorem runOps_inv : ∀ {ops : List DirOp} {st st1 : FuseState},
    DirInv st → runOps st ops = some st1 → DirInv st1 := by
  intro ops
  induction ops with
  | nil =>
    intro st st1 h hr
    injection hr with h1
    subst h1
    exact h
  | cons op rest ih =>
    intro st st1 h hr
    simp only [runOps] at hr
    cases ha : applyOp st op with
    | none => simp [ha] at hr
    | some st2 =>
      rw [ha] at hr
      simp only [Option.some_bind] at hr
      exact ih (applyOp_inv h ha) hr

theorem initState_inv : DirInv initState := by
  refine ⟨?_, ?_, ?_⟩
  · show ((initState.nodes).map Node.nodeid).Nodup
    decide
  · intro n hn
    have he : n = rootNode := List.mem_singleton.mp hn
    rw [he]
    decide
  · refine ⟨rootNode, ?_, rfl, rfl, rfl, by decide, by decide⟩
    exact List.mem_singleton.mpr rfl

/-- C2.  In every state reachable from construction by any sequence of
node-directory operations (find_or_create, forget, forget_old, remove,
rename, and the open/release bookkeeping), exactly one node with
`nodeid = FUSE_ROOT_ID` exists in the index (uniqueness stated through
the final conjunct); it is attached as "/" with parent 0 and
`refctr ≥ 1`, `nlookup ≥ 1`.  In particular no FORGET with any count
destroys or unhashes it: `forget_node` returns early on the root,
`forget_node_old` tests `nodeid != FUSE_ROOT_ID`, and every other path
that would unhash the root aborts the process (its parent 0 is not in
the ID index), leaving no successor state. -/
theorem root_node_invariant (ops : List DirOp) (st : FuseState)
    (h : runOps initState ops = some st) :
    ∃ r ∈ st.nodes, r.nodeid = FUSE_ROOT_ID ∧ r.name = some "/" ∧ r.parent = 0 ∧
      1 ≤ r.refctr ∧ 1 ≤ r.nlookup ∧
      ∀ m ∈ st.nodes, m.nodeid = FUSE_ROOT_ID → m = r := by
  obtain ⟨hnd, hz, hro⟩ := runOps_inv initState_inv h
  obtain ⟨r, hr, hid, hnm, hp, hrc, hnl⟩ := hro
  refine ⟨r, hr, hid, hnm, hp, hrc, hnl, ?_⟩
  intro m hm hmid
  exact nodeid_inj hnd hm hr (by rw [hmid, hid])

/-- Witness for C2: a FORGET of the root with count 7 runs and leaves
the directory whole — the reached state still holds the unique, intact
root node. -/
theorem root_node_invariant_witness :
    ∃ r ∈ (initState.nodes), r.nodeid = FUSE_ROOT_ID ∧ r.name = some "/" ∧ r.parent = 0 ∧
      1 ≤ r.refctr ∧ 1 ≤ r.nlookup ∧
      ∀ m ∈ (initState.nodes), m.nodeid = FUSE_ROOT_ID → m = r :=
  root_node_invariant [DirOp.forget FUSE_ROOT_ID 7] initState rfl

/-! ## Cancel-lookup rollback (C4) -/

theorem updN_ids_ne {ns : List Node} {j c : Nat} {g : Node → Node}
    (hg : ∀ n, (g n).nodeid = n.nodeid) (h : ∀ m ∈ ns, m.nodeid ≠ c) :
    ∀ m ∈ updN ns j g, m.nodeid ≠ c := by
  intro m hm
  obtain ⟨n, hn, he⟩ := mem_updN_elim hm
  subst he
  by_cases hc : n.nodeid = j
  · rw [if_pos hc, hg]; exact h n hn
  · rw [if_neg hc]; exact h n hn

/-- Tearing down a freshly created node: `unhash_name` detaches it
(returning the parent's extra refcount) and `unref_node` destroys it,
leaving exactly the original node list. -/
theorem fresh_teardown {stX : FuseState} {ns : List Node} {c parent : Nat} {nm : String}
    {node1 : Node} {p : Node}
    (hnodes : stX.nodes
      = node1 :: updN ns parent (fun m => { m with refctr := m.refctr + 1 }))
    (hid : node1.nodeid = c) (hpar : node1.parent = parent)
    (hname : node1.name = some nm) (hrefc : node1.refctr = 1)
    (hfree : ∀ m ∈ ns, m.nodeid ≠ c)
    (hg : getN ns parent = some p) (hp1 : 1 ≤ p.refctr) :
    ∃ stY, unhash_name stX c = some stY ∧
      ∃ stZ, unref_node stY c = some stZ ∧ stZ.nodes = ns := by
  have hpc : parent ≠ c := by
    obtain ⟨hpm, hpid⟩ := getN_mem hg
    rw [← hpid]
    exact hfree p hpm
  have htail : ∀ m ∈ updN ns parent (fun m => { m with refctr := m.refctr + 1 }),
      m.nodeid ≠ c := updN_ids_ne (fun _ => rfl) hfree
  have hgetc : getN stX.nodes c = some node1 := by
    rw [hnodes, getN_cons, if_pos hid]
  have hgetp : getN stX.nodes parent
      = some { p with refctr := p.refctr + 1 } := by
    rw [hnodes, getN_cons, if_neg (by rw [hid]; exact Ne.symm hpc)]
    rw [getN_updN (g := fun m => { m with refctr := m.refctr + 1 }) (fun _ => rfl) parent, hg]
    simp only [Option.map_some']
    rw [if_pos (getN_mem hg).2]
  -- the unref of the parent inside unhash_name
  have hunref : unref_node stX parent = some { stX with nodes := node1 :: ns } := by
    unfold unref_node
    rw [hgetp]
    simp only []
    rw [if_neg (by show ¬p.refctr + 1 = 0; omega)]
    rw [if_neg (by show ¬p.refctr + 1 - 1 = 0; omega)]
    have hlist : updN stX.nodes parent (fun m => { m with refctr := m.refctr - 1 })
        = node1 :: ns := by
      rw [hnodes, updN_cons, if_neg (by rw [hid]; exact Ne.symm hpc)]
      rw [updN_comp (f := fun m => { m with refctr := m.refctr + 1 })
        (g := fun m => { m with refctr := m.refctr - 1 }) (fun _ => rfl)]
      rw [updN_id (g := fun n => { (({ n with refctr := n.refctr + 1 }) : Node) with refctr := ({ n with refctr := n.refctr + 1 } : Node).refctr - 1 }) (fun n => by simp)]
    rw [hlist]
  have hunhash : unhash_name stX c
      = some { stX with nodes :=
          { node1 with name := none, parent := 0 } :: ns } := by
    unfold unhash_name
    rw [hgetc]
    simp only []
    rw [hname]
    simp only [hpar, hunref]
    have hlist : updN (node1 :: ns) c (fun m => { m with name := none, parent := 0 })
        = { node1 with name := none, parent := 0 } :: ns := by
      rw [updN_cons, if_pos hid, updN_not_mem hfree]
    rw [hlist]
  refine ⟨{ stX with nodes := ({ node1 with name := none, parent := 0 } : Node) :: ns },
    hunhash, { stX with nodes := ns }, ?_, rfl⟩
  have hgetc2 : getN (({ node1 with name := none, parent := 0 } : Node) :: ns) c
      = some ({ node1 with name := none, parent := 0 } : Node) := by
    rw [getN_cons, if_pos hid]
  unfold unref_node
  simp only [hgetc2]
  rw [if_neg (by show ¬node1.refctr = 0; omega)]
  rw [if_pos (by show node1.refctr - 1 = 0; omega)]
  rw [if_neg (by simp)]
  have hlist2 : delN (updN (({ node1 with name := none, parent := 0 } : Node) :: ns) c
      (fun m => { m with refctr := m.refctr - 1 })) c = ns := by
    rw [updN_cons, if_pos hid, updN_not_mem hfree, delN_cons, if_pos hid, delN_not_mem hfree]
  rw [hlist2]

theorem not_mem_idsOf {ns : List Node} {c : Nat} (h : c ∉ idsOf ns) :
    ∀ m ∈ ns, m.nodeid ≠ c := by
  intro m hm he
  exact h (List.mem_map.mpr ⟨m, hm, he⟩)

/-- Counterexample for C4 as stated: under protocol major ≤ 6 the
cancel goes through `forget_node_old`, whose version match destroys a
pre-existing target outright.  In the two-node directory, a LOOKUP hit
on the already-present "/hello" (bumping `nlookup` to 2 and stamping
the request unique 9 as its version) followed by a cancel under major 5
removes the node from both indices: the (1, "hello") name-index entry
that existed before the operation is gone afterwards. -/
theorem cancel_lookup_legacy_counterexample :
    (lookupN stTwo.nodes 1 "hello").isSome = true ∧
    (find_node stTwo 1 "hello" 9).map
        (fun r => (cancel_lookup 5 r.1 r.2 9).map
          (fun s => (lookupN s.nodes 1 "hello").isSome))
      = some (some false) := by
  constructor
  · decide
  · decide

/-- C4 (amended).  A lookup-class operation (LOOKUP, MKNOD, MKDIR,
SYMLINK, LINK — they all funnel their node-directory effect through
`find_node`) that succeeds but whose reply write fails with ENOENT is
rolled back by `cancel_lookup` to the pre-operation directory —
membership of the ID index, membership of the name index, the target's
`nlookup` and the parent's `refctr` all equal their prior values, and a
freshly created node is destroyed — provided the negotiated protocol
major exceeds 6 or the operation freshly created the target; under
major ≤ 6 with a pre-existing target the version-matching legacy cancel
destroys the target instead (see the counterexample).  The
wellformedness hypotheses hold in every kernel-reachable directory: ids
are unhashed, the target of a (parent, name) lookup is never the root,
an indexed parent is referenced, and an attached node has
`nlookup ≥ 1`. -/
theorem cancel_lookup_restores (st st1 st2 : FuseState) (major parent u nid : Nat)
    (nm : String)
    (hnd : NodupIds st.nodes)
    (hfind : find_node st parent nm u = some (st1, nid))
    (hnid : nid ≠ FUSE_ROOT_ID)
    (hpar : ∀ pn, getN st.nodes parent = some pn → 1 ≤ pn.refctr)
    (hhit : ∀ n, lookupN st.nodes parent nm = some n → 1 ≤ n.nlookup)
    (hmaj : 6 < major ∨ lookupN st.nodes parent nm = none)
    (hcancel : cancel_lookup major st1 nid u = some st2) :
    (∀ i, (getN st2.nodes i).isSome = (getN st.nodes i).isSome) ∧
    (∀ p q, (lookupN st2.nodes p q).isSome = (lookupN st.nodes p q).isSome) ∧
    ((getN st2.nodes nid).map Node.nlookup = (getN st.nodes nid).map Node.nlookup) ∧
    ((getN st2.nodes parent).map Node.refctr = (getN st.nodes parent).map Node.refctr) ∧
    (lookupN st.nodes parent nm = none → getN st2.nodes nid = none) := by
  unfold find_node at hfind
  cases hl : lookupN st.nodes parent nm with
  | some n =>
    simp only [hl] at hfind
    injection hfind with h1
    rw [Prod.mk.injEq] at h1
    obtain ⟨hst1, hter⟩ := h1
    subst hter
    subst hst1
    have hmaj6 : 6 < major := by
      rcases hmaj with h | h
      · exact h
      · rw [hl] at h; exact Option.noConfusion h
    obtain ⟨hmem, hnp, hnn⟩ := lookupN_mem hl
    have hgn : getN st.nodes n.nodeid = some n := getN_of_mem_nodup hnd hmem
    have hnl1 : 1 ≤ n.nlookup := hhit n hl
    unfold cancel_lookup at hcancel
    rw [if_neg (by omega)] at hcancel
    unfold forget_node at hcancel
    rw [if_neg hnid] at hcancel
    have hg1 : getN (updN st.nodes n.nodeid
        (fun m => { m with version := u, nlookup := m.nlookup + 1 })) n.nodeid
        = some { n with version := u, nlookup := n.nlookup + 1 } := by
      rw [getN_updN (g := fun m => { m with version := u, nlookup := m.nlookup + 1 })
        (fun _ => rfl) n.nodeid, hgn]
      simp
    simp only [hg1] at hcancel
    rw [if_neg (by show ¬n.nlookup + 1 < 1; omega)] at hcancel
    rw [if_neg (by show ¬n.nlookup + 1 - 1 = 0; omega)] at hcancel
    injection hcancel with h2
    have hlist : st2.nodes = updN st.nodes n.nodeid
        (fun m => { m with version := u, nlookup := m.nlookup + 1 - 1 }) := by
      rw [← h2]
      show updN (updN st.nodes n.nodeid
        (fun m => { m with version := u, nlookup := m.nlookup + 1 })) n.nodeid
        (fun m => { m with nlookup := m.nlookup - 1 }) = _
      rw [updN_comp (f := fun m => { m with version := u, nlookup := m.nlookup + 1 })
        (g := fun m => { m with nlookup := m.nlookup - 1 }) (fun _ => rfl)]
    refine ⟨?_, ?_, ?_, ?_, ?_⟩
    · intro i
      rw [hlist, getN_updN (g := fun m =>
        { m with version := u, nlookup := m.nlookup + 1 - 1 }) (fun _ => rfl) i]
      cases getN st.nodes i <;> rfl
    · intro p q
      rw [hlist, lookupN_updN (g := fun m =>
        { m with version := u, nlookup := m.nlookup + 1 - 1 }) (fun _ => ⟨rfl, rfl⟩) p q]
      cases lookupN st.nodes p q <;> rfl
    · rw [hlist, getN_updN (g := fun m =>
        { m with version := u, nlookup := m.nlookup + 1 - 1 }) (fun _ => rfl) n.nodeid, hgn]
      simp
    · rw [hlist, getN_updN (g := fun m =>
        { m with version := u, nlookup := m.nlookup + 1 - 1 }) (fun _ => rfl) parent]
      cases hgp : getN st.nodes parent with
      | none => rfl
      | some pn => by_cases hc : pn.nodeid = n.nodeid <;> simp [hc]
    · intro hcon
      exact Option.noConfusion hcon
  | none =>
    simp only [hl] at hfind
    cases hni : next_id st with
    | none => rw [hni] at hfind; exact Option.noConfusion hfind
    | some cs =>
      obtain ⟨c, stc⟩ := cs
      simp only [hni] at hfind
      cases hgp : getN stc.nodes parent with
      | none => rw [hgp] at hfind; simp at hfind
      | some p =>
        simp only [hgp] at hfind
        injection hfind with h1
        rw [Prod.mk.injEq] at h1
        obtain ⟨hst1, hcnid⟩ := h1
        subst hcnid
        obtain ⟨hc0, hcfree, hceq, hctr⟩ := next_id_fresh hni
        have hfree2 : ∀ m ∈ st.nodes, m.nodeid ≠ c := not_mem_idsOf hcfree
        have hgp2 : getN st.nodes parent = some p := by rw [← hceq]; exact hgp
        have hp1 : 1 ≤ p.refctr := hpar p hgp2
        subst hst1
        have hget0 : getN (freshNode c stc.generation parent nm u :: updN stc.nodes parent
            (fun m => { m with refctr := m.refctr + 1 })) c
            = some (freshNode c stc.generation parent nm u) := by
          rw [getN_cons]
          simp [freshNode]
        have htail2 : ∀ m ∈ updN stc.nodes parent
            (fun m => { m with refctr := m.refctr + 1 }), m.nodeid ≠ c :=
          updN_ids_ne (fun _ => rfl) (by rw [hceq]; exact hfree2)
        have hfin : st2.nodes = st.nodes := by
          unfold cancel_lookup at hcancel
          by_cases hm6 : major ≤ 6
          · rw [if_pos hm6] at hcancel
            unfold forget_node_old at hcancel
            simp only [hget0] at hcancel
            rw [if_pos (show (freshNode c stc.generation parent nm u).version = u ∧
              c ≠ FUSE_ROOT_ID from ⟨rfl, hnid⟩)] at hcancel
            have hlist : updN (freshNode c stc.generation parent nm u :: updN stc.nodes parent
                (fun m => { m with refctr := m.refctr + 1 })) c
                (fun m => { m with version := 0 })
                = ({ freshNode c stc.generation parent nm u with version := 0 })
                  :: updN st.nodes parent (fun m => { m with refctr := m.refctr + 1 }) := by
              rw [updN_cons]
              rw [if_pos (show (freshNode c stc.generation parent nm u).nodeid = c from rfl)]
              rw [updN_not_mem htail2, hceq]
            rw [hlist] at hcancel
            obtain ⟨stY, hY, stZ, hZ, hZn⟩ := @fresh_teardown
              { nodes := ({ freshNode c stc.generation parent nm u with version := 0 }) :: updN st.nodes parent (fun m => { m with refctr := m.refctr + 1 }), ctr := stc.ctr, generation := stc.generation, hidectr := stc.hidectr }
              st.nodes c parent nm
              ({ freshNode c stc.generation parent nm u with version := 0 })
              p rfl rfl rfl rfl rfl hfree2 hgp2 hp1
            rw [hY] at hcancel
            simp only [hZ] at hcancel
            injection hcancel with h2
            rw [← h2]
            exact hZn
          · rw [if_neg hm6] at hcancel
            unfold forget_node at hcancel
            rw [if_neg hnid] at hcancel
            simp only [hget0] at hcancel
            rw [if_neg (show ¬(freshNode c stc.generation parent nm u).nlookup < 1 from
              by show ¬(1 : Nat) < 1; omega)] at hcancel
            rw [if_pos (show (freshNode c stc.generation parent nm u).nlookup - 1 = 0 from
              by show (1 : Nat) - 1 = 0; omega)] at hcancel
            have hlist : updN (freshNode c stc.generation parent nm u :: updN stc.nodes parent
                (fun m => { m with refctr := m.refctr + 1 })) c
                (fun m => { m with nlookup := m.nlookup - 1 })
                = ({ freshNode c stc.generation parent nm u with nlookup := 1 - 1 })
                  :: updN st.nodes parent (fun m => { m with refctr := m.refctr + 1 }) := by
              rw [updN_cons]
              rw [if_pos (show (freshNode c stc.generation parent nm u).nodeid = c from rfl)]
              rw [updN_not_mem htail2, hceq]
              rfl
            rw [hlist] at hcancel
            obtain ⟨stY, hY, stZ, hZ, hZn⟩ := @fresh_teardown
              { nodes := ({ freshNode c stc.generation parent nm u with nlookup := 1 - 1 }) :: updN st.nodes parent (fun m => { m with refctr := m.refctr + 1 }), ctr := stc.ctr, generation := stc.generation, hidectr := stc.hidectr }
              st.nodes c parent nm
              ({ freshNode c stc.generation parent nm u with nlookup := 1 - 1 })
              p rfl rfl rfl rfl rfl hfree2 hgp2 hp1
            rw [hY] at hcancel
            simp only [hZ] at hcancel
            injection hcancel with h2
            rw [← h2]
            exact hZn
        refine ⟨fun i => by rw [hfin], fun pp qq => by rw [hfin], by rw [hfin],
          by rw [hfin], fun _ => ?_⟩
        rw [hfin]
        exact getN_eq_none_of hfree2

/-- Witness for C4 (amended) at the two-node directory: the fresh
lookup of (1, "x") creates node 3 and its cancel under major 7 restores
every queried aspect of the directory. -/
theorem cancel_lookup_restores_witness :
    (∀ i, (getN stFresh2.nodes i).isSome = (getN stTwo.nodes i).isSome) ∧
    (∀ p q, (lookupN stFresh2.nodes p q).isSome = (lookupN stTwo.nodes p q).isSome) ∧
    ((getN stFresh2.nodes 3).map Node.nlookup = (getN stTwo.nodes 3).map Node.nlookup) ∧
    ((getN stFresh2.nodes 1).map Node.refctr = (getN stTwo.nodes 1).map Node.refctr) ∧
    (lookupN stTwo.nodes 1 "x" = none → getN stFresh2.nodes 3 = none) := by
  refine cancel_lookup_restores stTwo stFresh stFresh2 7 1 9 3 "x" ?_ ?_ ?_ ?_ ?_ ?_ ?_
  · unfold NodupIds idsOf
    decide
  · decide
  · decide
  · intro pn h
    rw [show getN stTwo.nodes 1 = some ({ rootNode with refctr := 2 }) from by decide] at h
    injection h with h1
    rw [← h1]
    decide
  · intro n h
    rw [show lookupN stTwo.nodes 1 "x" = none from by decide] at h
    exact Option.noConfusion h
  · exact Or.inl (by norm_num)
  · decide

/-! ## The unlink-while-open policy (C3) -/

theorem unref_node_shape {st stu : FuseState} {p : Nat} (h : unref_node st p = some stu) :
    ∀ m1 ∈ stu.nodes, ∃ m ∈ st.nodes,
      m1.nodeid = m.nodeid ∧ m1.name = m.name ∧ m1.parent = m.parent := by
  unfold unref_node at h
  cases hg : getN st.nodes p with
  | none => simp [hg] at h
  | some d =>
    simp only [hg] at h
    by_cases h0 : d.refctr = 0
    · rw [if_pos h0] at h; simp at h
    · rw [if_neg h0] at h
      by_cases h1 : d.refctr - 1 = 0
      · rw [if_pos h1] at h
        by_cases h2 : d.name ≠ none
        · rw [if_pos h2] at h; simp at h
        · rw [if_neg h2] at h
          injection h with h3
          subst h3
          intro m1 hm1
          have hm2 := List.mem_of_mem_filter hm1
          obtain ⟨m, hm, he⟩ := mem_updN_elim hm2
          subst he
          by_cases hc : m.nodeid = p
          · exact ⟨m, hm, by simp [hc]⟩
          · exact ⟨m, hm, by simp [hc]⟩
      · rw [if_neg h1] at h
        injection h with h3
        subst h3
        intro m1 hm1
        obtain ⟨m, hm, he⟩ := mem_updN_elim hm1
        subst he
        by_cases hc : m.nodeid = p
        · exact ⟨m, hm, by simp [hc]⟩
        · exact ⟨m, hm, by simp [hc]⟩

theorem unhash_lookup_gone {st st1 : FuseState} {dir : Nat} {nm : String} {n : Node}
    (hnd : NodupIds st.nodes)
    (hn : lookupN st.nodes dir nm = some n)
    (huniq : ∀ m ∈ st.nodes, m.parent = dir → m.name = some nm → m = n)
    (hu : unhash_name st n.nodeid = some st1) :
    lookupN st1.nodes dir nm = none := by
  obtain ⟨hmem, hpar, hname⟩ := lookupN_mem hn
  unfold unhash_name at hu
  rw [getN_of_mem_nodup hnd hmem] at hu
  simp only [hname] at hu
  cases hur : unref_node st n.parent with
  | none => rw [hur] at hu; exact Option.noConfusion hu
  | some stu =>
    rw [hur] at hu
    simp only [] at hu
    injection hu with h1
    subst h1
    apply lookupN_eq_none_iff.mpr
    intro m1 hm1 hcon
    obtain ⟨m2, hm2, he⟩ := mem_updN_elim hm1
    obtain ⟨m, hm, hid2, hnm2, hp2⟩ := unref_node_shape hur m2 hm2
    subst he
    by_cases hc : m2.nodeid = n.nodeid
    · rw [if_pos hc] at hcon
      simp at hcon
    · rw [if_neg hc] at hcon
      have hmn : m = n := huniq m hm (by rw [← hp2]; exact hcon.1) (by rw [← hnm2]; exact hcon.2)
      rw [hid2, hmn] at hc
      exact hc rfl

theorem rename_hide_effect {st : FuseState} {dir : Nat} {nm cand : String} {n d : Node}
    {err : Int} {st1 : FuseState}
    (hnd : NodupIds st.nodes)
    (hn : lookupN st.nodes dir nm = some n)
    (huniq : ∀ m ∈ st.nodes, m.parent = dir → m.name = some nm → m = n)
    (hfreecand : lookupN st.nodes dir cand = none)
    (hd : getN st.nodes dir = some d)
    (hd2 : 2 ≤ d.refctr)
    (hndir : n.nodeid ≠ dir)
    (hr : rename_node st dir nm dir cand true = some (err, st1)) :
    err = 0 ∧ lookupN st1.nodes dir nm = none ∧
      ∃ m1, lookupN st1.nodes dir cand = some m1 ∧ m1.nodeid = n.nodeid ∧
        m1.is_hidden = true := by
  obtain ⟨hmem, hpar2, hname⟩ := lookupN_mem hn
  have hdid : d.nodeid = dir := (getN_mem hd).2
  have hcne : cand ≠ nm := by
    intro he
    rw [he, hn] at hfreecand
    exact Option.noConfusion hfreecand
  unfold rename_node at hr
  simp only [hn, hfreecand] at hr
  unfold renameRehash at hr
  have hunref : unref_node st n.parent = some { st with nodes := updN st.nodes dir (fun m => { m with refctr := m.refctr - 1 }) } := by
    rw [hpar2]
    unfold unref_node
    rw [hd]
    simp only []
    rw [if_neg (by omega : ¬d.refctr = 0)]
    rw [if_neg (by omega : ¬d.refctr - 1 = 0)]
  have hunhash : unhash_name st n.nodeid = some { st with nodes := updN (updN st.nodes dir (fun m => { m with refctr := m.refctr - 1 })) n.nodeid (fun m => { m with name := none, parent := 0 }) } := by
    unfold unhash_name
    rw [getN_of_mem_nodup hnd hmem]
    simp only [hname, hunref]
  simp only [hunhash] at hr
  have hgetd : getN (updN (updN st.nodes dir (fun m => { m with refctr := m.refctr - 1 })) n.nodeid (fun m => { m with name := none, parent := 0 })) dir = some { d with refctr := d.refctr - 1 } := by
    rw [getN_updN (g := fun m => { m with name := none, parent := 0 }) (fun _ => rfl) dir]
    rw [getN_updN (g := fun m => { m with refctr := m.refctr - 1 }) (fun _ => rfl) dir]
    rw [hd]
    simp only [Option.map_some']
    rw [if_pos hdid]
    rw [if_neg (show ¬({ d with refctr := d.refctr - 1 } : Node).nodeid = n.nodeid from by show ¬d.nodeid = n.nodeid; rw [hdid]; exact fun hc => hndir hc.symm)]
  unfold hash_name at hr
  simp only [hgetd] at hr
  injection hr with h1
  rw [Prod.mk.injEq] at h1
  obtain ⟨herr, hst1⟩ := h1
  rw [if_pos trivial] at hst1
  have hfin : st1.nodes = updN (updN (updN (updN (updN st.nodes dir (fun m => { m with refctr := m.refctr - 1 })) n.nodeid (fun m => { m with name := none, parent := 0 })) dir (fun m => { m with refctr := m.refctr + 1 })) n.nodeid (fun m => { m with parent := dir, name := some cand })) n.nodeid (fun m => { m with is_hidden := true }) := by
    rw [← hst1]
  have hdirn : ¬ dir = n.nodeid := fun hh => hndir hh.symm
  refine ⟨herr.symm, ?_, ?_⟩
  · apply lookupN_eq_none_iff.mpr
    intro m1 hm1 hcon
    rw [hfin] at hm1
    obtain ⟨a4, ha4, he5⟩ := mem_updN_elim hm1
    obtain ⟨a3, ha3, he4⟩ := mem_updN_elim ha4
    obtain ⟨a2, ha2, he3⟩ := mem_updN_elim ha3
    obtain ⟨a1, ha1, he2⟩ := mem_updN_elim ha2
    obtain ⟨m, hm, he1⟩ := mem_updN_elim ha1
    subst he5
    subst he4
    subst he3
    subst he2
    subst he1
    by_cases hc : m.nodeid = n.nodeid
    · have hcd : ¬ m.nodeid = dir := by rw [hc]; exact hndir
      simp [hc, hcd, hcne, hdirn, hndir] at hcon
    · by_cases hcd : m.nodeid = dir
      · simp [hc, hcd, hdirn] at hcon
        exact hc (by rw [huniq m hm hcon.1 hcon.2])
      · simp [hc, hcd, hdirn] at hcon
        exact hc (by rw [huniq m hm hcon.1 hcon.2])
  · have hb1 := mem_updN_of_mem (g := fun m => { m with refctr := m.refctr - 1 })
      (j := dir) hmem
    rw [if_neg hndir] at hb1
    have hb2 := mem_updN_of_mem (g := fun m => { m with name := none, parent := 0 })
      (j := n.nodeid) hb1
    rw [if_pos rfl] at hb2
    have hb3 := mem_updN_of_mem (g := fun m => { m with refctr := m.refctr + 1 })
      (j := dir) hb2
    rw [if_neg (show ¬({ n with name := none, parent := 0 } : Node).nodeid = dir from hndir)]
      at hb3
    have hb4 := mem_updN_of_mem (g := fun m => { m with parent := dir, name := some cand })
      (j := n.nodeid) hb3
    rw [if_pos rfl] at hb4
    have hb5 := mem_updN_of_mem (g := fun m => { m with is_hidden := true })
      (j := n.nodeid) hb4
    rw [if_pos rfl] at hb5
    have hsome : (lookupN st1.nodes dir cand).isSome := by
      rw [hfin]
      exact lookupN_isSome_of_mem hb5 rfl rfl
    obtain ⟨m1, hm1e⟩ := Option.isSome_iff_exists.mp hsome
    obtain ⟨hm1mem, hm1p, hm1n⟩ := lookupN_mem hm1e
    refine ⟨m1, hm1e, ?_⟩
    rw [hfin] at hm1mem
    obtain ⟨a4, ha4, he5⟩ := mem_updN_elim hm1mem
    obtain ⟨a3, ha3, he4⟩ := mem_updN_elim ha4
    obtain ⟨a2, ha2, he3⟩ := mem_updN_elim ha3
    obtain ⟨a1, ha1, he2⟩ := mem_updN_elim ha2
    obtain ⟨m, hm, he1⟩ := mem_updN_elim ha1
    subst he5
    subst he4
    subst he3
    subst he2
    subst he1
    by_cases hc : m.nodeid = n.nodeid
    · have hcd : ¬ m.nodeid = dir := by rw [hc]; exact hndir
      constructor
      · simp [hc, hcd, hdirn, hndir]
      · simp [hc, hcd, hdirn, hndir]
    · exfalso
      by_cases hcd : m.nodeid = dir
      · simp [hc, hcd, hdirn] at hm1p hm1n
        exact (lookupN_eq_none_iff.mp hfreecand m hm) ⟨hm1p, hm1n⟩
      · simp [hc, hcd, hdirn] at hm1p hm1n
        exact (lookupN_eq_none_iff.mp hfreecand m hm) ⟨hm1p, hm1n⟩

/-- One successful pass of the `hidden_name` retry loop: the first
candidate is free in the name index and the `getattr` probe on its path
reports that the backing name does not exist. -/
theorem hiddenNameLoop_hit {ops : UserOps} {st : FuseState} {dir : Nat} {nm : String}
    {n : Node} {innerFuel failctr : Nat} {npath : String} {evs : List Ev}
    (hn : lookupN st.nodes dir nm = some n)
    (hfree : lookupN st.nodes dir (hiddenFmt n.nodeid ((st.hidectr + 1) % W32)) = none)
    (hnp : get_path_name st.nodes FUSE_MAX_PATH dir (some (hiddenFmt n.nodeid ((st.hidectr + 1) % W32))) = some npath)
    (hgat : ops.getattrRes npath ≠ 0) :
    hiddenNameLoop ops dir nm (innerFuel + 1) (failctr + 1) st evs =
      some (some (hiddenFmt n.nodeid ((st.hidectr + 1) % W32), npath),
            { st with hidectr := (st.hidectr + 1) % W32 }, evs ++ [Ev.gattr npath]) := by
  simp only [hiddenNameLoop, hn, hiddenNameInner]
  simp only [hfree, Option.isSome_none, Bool.false_eq_true, if_false]
  simp only [hnp]
  rw [if_pos hgat]

/-- C3.  UNLINK policy.  (1) Without "hard_remove" and with the target
open, `do_unlink` performs the hide dance: the user `getattr` probe and
the user `rename` to the synthetic hidden name are the only callbacks
invoked (no user `unlink`), the reply is 0, the `(dir, name)` slot is
freed, and the node is re-indexed under the hidden name with
`is_hidden` set.  (2) With "hard_remove" set or the target not open,
the only callback is the user `unlink` on the reconstructed path, its
result is the reply, and on success the node is unhashed from the name
index.  (3) `do_release` on a hidden node whose `open_count` drops to
zero issues the deferred user `unlink` on the hidden path. -/
theorem unlink_hide_policy (ops : UserOps) :
    (∀ st dir nm (n d : Node) (err : Int) st1 evs innerFuel path npath,
      NodupIds st.nodes →
      lookupN st.nodes dir nm = some n →
      (∀ m ∈ st.nodes, m.parent = dir → m.name = some nm → m = n) →
      0 < n.open_count →
      ops.hasGetattr = true → ops.hasRename = true → ops.hasUnlink = true →
      lookupN st.nodes dir (hiddenFmt n.nodeid ((st.hidectr + 1) % W32)) = none →
      get_path_name st.nodes FUSE_MAX_PATH dir (some nm) = some path →
      get_path_name st.nodes FUSE_MAX_PATH dir (some (hiddenFmt n.nodeid ((st.hidectr + 1) % W32))) = some npath →
      ops.getattrRes npath ≠ 0 →
      ops.renameRes path npath = 0 →
      getN st.nodes dir = some d → 2 ≤ d.refctr → n.nodeid ≠ dir →
      do_unlink ops false st dir nm (innerFuel + 1) = some (err, st1, evs) →
      err = 0 ∧ evs = [Ev.gattr npath, Ev.ren path npath] ∧
        lookupN st1.nodes dir nm = none ∧
        ∃ m1, lookupN st1.nodes dir (hiddenFmt n.nodeid ((st.hidectr + 1) % W32)) = some m1 ∧
          m1.nodeid = n.nodeid ∧ m1.is_hidden = true) ∧
    (∀ st dir nm (n : Node) hardRemove (err : Int) st1 evs innerFuel path,
      NodupIds st.nodes →
      lookupN st.nodes dir nm = some n →
      (∀ m ∈ st.nodes, m.parent = dir → m.name = some nm → m = n) →
      ops.hasUnlink = true →
      (hardRemove = true ∨ isOpen st dir nm = false) →
      get_path_name st.nodes FUSE_MAX_PATH dir (some nm) = some path →
      do_unlink ops hardRemove st dir nm innerFuel = some (err, st1, evs) →
      evs = [Ev.unl path] ∧ err = ops.unlinkRes path ∧
        (ops.unlinkRes path = 0 → lookupN st1.nodes dir nm = none)) ∧
    (∀ st j (n : Node) st2 evs2 hp,
      getN st.nodes j = some n →
      n.is_hidden = true →
      n.open_count = 1 →
      get_path_name (updN st.nodes j (fun m => { m with open_count := m.open_count - 1 })) FUSE_MAX_PATH j none = some hp →
      do_release ops st j = some (st2, evs2) →
      Ev.unl hp ∈ evs2) := by
  refine ⟨?_, ?_, ?_⟩
  · intro st dir nm n d err st1 evs innerFuel path npath hnd hn huniq hopen hga hre hun hfreec hpath hnpath hgat hren hd hd2 hndir hdu
    have hio : isOpen st dir nm = true := by
      unfold isOpen
      rw [hn]
      simp [hopen]
    unfold do_unlink at hdu
    simp only [hpath, hun] at hdu
    rw [if_neg (by simp)] at hdu
    rw [if_pos (by simp [hio])] at hdu
    unfold hide_node at hdu
    rw [if_pos ⟨by rw [hre], by rw [hun]⟩] at hdu
    unfold hidden_name at hdu
    rw [if_neg (by simp [hga])] at hdu
    have hloop : hiddenNameLoop ops dir nm (innerFuel + 1) 10 st [] =
        some (some (hiddenFmt n.nodeid ((st.hidectr + 1) % W32), npath),
              { st with hidectr := (st.hidectr + 1) % W32 }, [] ++ [Ev.gattr npath]) :=
      @hiddenNameLoop_hit ops st dir nm n innerFuel 9 npath [] hn hfreec hnpath hgat
    rw [hloop] at hdu
    simp only [List.nil_append] at hdu
    rw [hren] at hdu
    rw [if_pos rfl] at hdu
    cases hrn : rename_node { st with hidectr := (st.hidectr + 1) % W32 } dir nm dir
        (hiddenFmt n.nodeid ((st.hidectr + 1) % W32)) true with
    | none => rw [hrn] at hdu; exact Option.noConfusion hdu
    | some p =>
      obtain ⟨err2, st2⟩ := p
      rw [hrn] at hdu
      simp only [] at hdu
      injection hdu with h1
      rw [Prod.mk.injEq] at h1
      obtain ⟨he, h2⟩ := h1
      rw [Prod.mk.injEq] at h2
      obtain ⟨hs, hv⟩ := h2
      have hmain := @rename_hide_effect { st with hidectr := (st.hidectr + 1) % W32 } dir nm
        (hiddenFmt n.nodeid ((st.hidectr + 1) % W32)) n d err2 st2
        hnd hn huniq hfreec hd hd2 hndir hrn
      obtain ⟨h0, hgone, m1, hm1, hmid, hmh⟩ := hmain
      subst hs
      refine ⟨by rw [← he, h0], hv.symm, hgone, m1, hm1, hmid, hmh⟩
  · intro st dir nm n hardRemove err st1 evs innerFuel path hnd hn huniq hun hcase hpath hdu
    unfold do_unlink at hdu
    simp only [hpath, hun] at hdu
    rw [if_neg (by simp)] at hdu
    rw [if_neg (by rcases hcase with h | h <;> simp [h])] at hdu
    by_cases hz : ops.unlinkRes path = 0
    · rw [if_pos hz] at hdu
      unfold remove_node at hdu
      simp only [hn] at hdu
      cases hu : unhash_name st n.nodeid with
      | none => rw [hu] at hdu; exact Option.noConfusion hdu
      | some stu =>
        rw [hu] at hdu
        simp only [Option.map_some'] at hdu
        injection hdu with h1
        rw [Prod.mk.injEq] at h1
        obtain ⟨he, h2⟩ := h1
        rw [Prod.mk.injEq] at h2
        obtain ⟨hs, hv⟩ := h2
        subst hs
        exact ⟨hv.symm, by rw [← he, hz], fun _ => unhash_lookup_gone hnd hn huniq hu⟩
    · rw [if_neg hz] at hdu
      injection hdu with h1
      rw [Prod.mk.injEq] at h1
      obtain ⟨he, h2⟩ := h1
      rw [Prod.mk.injEq] at h2
      obtain ⟨hs, hv⟩ := h2
      exact ⟨hv.symm, he.symm, fun hc => absurd hc hz⟩
  · intro st j n st2 evs2 hp hg hhid hoc hpath hrel
    unfold do_release release_node at hrel
    simp only [hg] at hrel
    rw [if_neg (by rw [hoc]; exact one_ne_zero)] at hrel
    simp [hhid, hoc, hpath] at hrel
    rw [← hrel.2]
    simp

theorem unlink_hide_policy_witness :
    (∃ stA, do_unlink opsHappy false stTwo 1 "hello" 1 =
        some (0, stA, [Ev.gattr "/.fuse_hidden0000000200000001",
                       Ev.ren "/hello" "/.fuse_hidden0000000200000001"]) ∧
      lookupN stA.nodes 1 "hello" = none ∧
      ∃ m1, lookupN stA.nodes 1 (hiddenFmt 2 1) = some m1 ∧
        m1.nodeid = 2 ∧ m1.is_hidden = true) ∧
    (∃ stB, do_unlink opsHappy true stTwo 1 "hello" 1 = some (0, stB, [Ev.unl "/hello"]) ∧
      lookupN stB.nodes 1 "hello" = none) ∧
    (∃ stC evsC, do_release opsHappy stHidden 2 = some (stC, evsC) ∧
      Ev.unl "/.fuse_hidden0000000200000001" ∈ evsC) := by
  obtain ⟨hA, hB, hC⟩ := unlink_hide_policy opsHappy
  refine ⟨?_, ?_, ?_⟩
  · have hdu : do_unlink opsHappy false stTwo 1 "hello" 1 =
        some (0, { nodes := [{ nodeid := 1, generation := 0, refctr := 2, parent := 0, name := some "/", version := 0, nlookup := 1, open_count := 0, is_hidden := false }, { nodeid := 2, generation := 0, refctr := 1, parent := 1, name := some ".fuse_hidden0000000200000001", version := 7, nlookup := 1, open_count := 1, is_hidden := true }], ctr := 2, generation := 0, hidectr := 1 },
              [Ev.gattr "/.fuse_hidden0000000200000001",
               Ev.ren "/hello" "/.fuse_hidden0000000200000001"]) := by decide
    have h := hA stTwo 1 "hello" nodeHello { rootNode with refctr := 2 } 0
      { nodes := [{ nodeid := 1, generation := 0, refctr := 2, parent := 0, name := some "/", version := 0, nlookup := 1, open_count := 0, is_hidden := false }, { nodeid := 2, generation := 0, refctr := 1, parent := 1, name := some ".fuse_hidden0000000200000001", version := 7, nlookup := 1, open_count := 1, is_hidden := true }], ctr := 2, generation := 0, hidectr := 1 }
      [Ev.gattr "/.fuse_hidden0000000200000001",
       Ev.ren "/hello" "/.fuse_hidden0000000200000001"] 0 "/hello"
      "/.fuse_hidden0000000200000001"
      (by show (idsOf stTwo.nodes).Nodup; decide) (by decide) (by decide) (by decide)
      rfl rfl rfl (by decide) (by decide) (by decide) (by decide) (by decide)
      (by decide) (by decide) (by decide) hdu
    exact ⟨_, hdu, h.2.2.1, h.2.2.2⟩
  · have hdu : do_unlink opsHappy true stTwo 1 "hello" 1 =
        some (0, { nodes := [{ nodeid := 1, generation := 0, refctr := 1, parent := 0, name := some "/", version := 0, nlookup := 1, open_count := 0, is_hidden := false }, { nodeid := 2, generation := 0, refctr := 1, parent := 0, name := none, version := 7, nlookup := 1, open_count := 1, is_hidden := false }], ctr := 2, generation := 0, hidectr := 0 },
              [Ev.unl "/hello"]) := by decide
    have h := hB stTwo 1 "hello" nodeHello true 0
      { nodes := [{ nodeid := 1, generation := 0, refctr := 1, parent := 0, name := some "/", version := 0, nlookup := 1, open_count := 0, is_hidden := false }, { nodeid := 2, generation := 0, refctr := 1, parent := 0, name := none, version := 7, nlookup := 1, open_count := 1, is_hidden := false }], ctr := 2, generation := 0, hidectr := 0 }
      [Ev.unl "/hello"] 1 "/hello"
      (by show (idsOf stTwo.nodes).Nodup; decide) (by decide) (by decide) rfl
      (Or.inl rfl) (by decide) hdu
    exact ⟨_, hdu, h.2.2 rfl⟩
  · have hrel : do_release opsHappy stHidden 2 =
        some ({ nodes := [{ nodeid := 1, generation := 0, refctr := 2, parent := 0, name := some "/", version := 0, nlookup := 1, open_count := 0, is_hidden := false }, { nodeid := 2, generation := 0, refctr := 1, parent := 1, name := some ".fuse_hidden0000000200000001", version := 7, nlookup := 1, open_count := 0, is_hidden := true }], ctr := 2, generation := 0, hidectr := 1 },
              [Ev.rel "/.fuse_hidden0000000200000001",
               Ev.unl "/.fuse_hidden0000000200000001"]) := by decide
    have h := hC stHidden 2 { nodeHello with name := some (hiddenFmt 2 1), is_hidden := true }
      { nodes := [{ nodeid := 1, generation := 0, refctr := 2, parent := 0, name := some "/", version := 0, nlookup := 1, open_count := 0, is_hidden := false }, { nodeid := 2, generation := 0, refctr := 1, parent := 1, name := some ".fuse_hidden0000000200000001", version := 7, nlookup := 1, open_count := 0, is_hidden := true }], ctr := 2, generation := 0, hidectr := 1 }
      [Ev.rel "/.fuse_hidden0000000200000001", Ev.unl "/.fuse_hidden0000000200000001"]
      "/.fuse_hidden0000000200000001"
      (by decide) rfl rfl (by decide) hrel
    exact ⟨_, _, hrel, h⟩
